import Mathlib

/-!
Verification development for the module-graph runtime (src/core/module.c) and
the logger (src/core/log.c) of the bess dataplane core.

The C code is shallowly embedded as pure Lean functions over an explicit
graph state.  Modules live in an association list keyed by a module id
(standing for the C object address); the string namespace is a separate
association list, as in namespace.c.  Heap allocation (rte_zmalloc /
rte_realloc / task_create), which can fail in C, is modelled by an explicit
oracle: a list of booleans consumed one per allocation attempt (an empty
oracle means every allocation succeeds).
-/

namespace Bess

/-- Numeric error codes (POSIX), as used by the source. -/
def EINVAL : Int := 22

/-- POSIX EBUSY. -/
def EBUSY : Int := 16

/-- POSIX ENOMEM. -/
def ENOMEM : Int := 12

/-- POSIX EEXIST. -/
def EEXIST : Int := 17

/-- Compile-time bound on gate indices, from the (missing) header module.h.
The spec says the exact value is implementation-chosen; the claims under
verification do not depend on it. -/
def MAX_GATES : Nat := 8192

/-- Length of the per-module task-slot array, from the (missing) header
module.h.  The claims do not depend on the exact value. -/
def MAX_TASKS_PER_MODULE : Nat := 32

/-- Module ids stand for C object addresses of `struct module`. -/
abbrev ModId := Nat

/-- Task handles stand for C addresses of scheduler-owned `struct task`. -/
abbrev Task := Nat

/-- Allocation oracle: each allocation attempt consumes one entry; an
exhausted oracle reports success. -/
abbrev Alloc := List Bool

/-- Consume one allocation attempt from the oracle. -/
def allocOk : Alloc → Bool × Alloc
  | [] => (true, [])
  | b :: rest => (b, rest)

/-- Module class descriptor (`struct mclass`): immutable metadata and the
presence of the capability hooks.  The hooks' own behaviour is external
(per-module logic is out of scope), so only their presence is modelled. -/
structure MClass where
  name : String
  numIgates : Nat
  numOgates : Nat
  hasProcessBatch : Bool
  hasRunTask : Bool
  defModuleName : Option String
deriving Repr, DecidableEq

/-- Downstream reference stored in an output gate: the module owning the
input gate (`ogate->out.igate->m`) and the input gate index
(`ogate->out.igate_idx`). -/
structure OGateOut where
  igateMod : ModId
  igateIdx : Nat
deriving Repr, DecidableEq

/-- Output gate (`struct gate`, output side).  `down = none` models a
zero-initialized gate whose `out.igate` pointer is still NULL.  The
diagnostics fields (tcpdump, fifo_fd) are not needed by any claim and are
omitted. -/
structure OGate where
  down : Option OGateOut
deriving Repr, DecidableEq

/-- Input gate (`struct gate`, input side): the intrusive list
`in.ogates_upstream` of upstream output gates, each identified by its
owning module (`ogate->m`) and its index (`ogate->gate_idx`), in list
order (`cdlist_add_tail` appends). -/
structure IGate where
  upstream : List (ModId × Nat)
deriving Repr, DecidableEq

/-- Module instance (`struct module`).  A gate array (`struct gates`) is a
list of slots: the list length is `curr_size` and a `none` slot is an
inactive gate (NULL entry).  `tasks` is the fixed task-slot array. -/
structure Module where
  name : String
  mclass : MClass
  ogates : List (Option OGate)
  igates : List (Option IGate)
  tasks : List (Option Task)
deriving Repr, DecidableEq

/-- Whole-graph state: the module store keyed by module id, and the
process-wide name namespace (entries of type NS_TYPE_MODULE). -/
structure Graph where
  mods : List (ModId × Module)
  ns : List (String × ModId)
deriving Repr, DecidableEq

/-- Dereference a module id (a C pointer dereference). -/
def findMod (g : Graph) : ModId → Option Module
  | a => lookupMod g.mods a
where
  /-- Association-list lookup for the module store. -/
  lookupMod : List (ModId × Module) → ModId → Option Module
    | [], _ => none
    | (k, m) :: rest, a => if a = k then some m else lookupMod rest a

/-- Update the module stored at one id, leaving every other id unchanged. -/
def updMod (g : Graph) (a : ModId) (f : Module → Module) : Graph :=
  { g with mods := g.mods.map fun p => if p.1 = a then (p.1, f p.2) else p }

/-- Modelled from the spec: `is_active_gate(gates, idx)` is declared in the
missing header module.h; per the spec a gate slot is active iff it is
within the array and non-empty. -/
def is_active_gate {α : Type} (gates : List (Option α)) (idx : Nat) : Bool :=
  ((gates.get? idx).getD none).isSome

/-- Content of the ogate slot `idx` of module `a` (`none` when the module
does not resolve, the index is out of range, or the slot is empty). -/
def ogateAt (g : Graph) (a : ModId) (k : Nat) : Option OGate :=
  match findMod g a with
  | some m => (m.ogates.get? k).getD none
  | none => none

/-- Content of the igate slot `j` of module `b`. -/
def igateAt (g : Graph) (b : ModId) (j : Nat) : Option IGate :=
  match findMod g b with
  | some m => (m.igates.get? j).getD none
  | none => none

/-- Activity of an ogate slot, as a boolean. -/
def activeOgate (g : Graph) (a : ModId) (k : Nat) : Bool :=
  (ogateAt g a k).isSome

/-- Activity of an igate slot, as a boolean. -/
def activeIgate (g : Graph) (b : ModId) (j : Nat) : Bool :=
  (igateAt g b j).isSome

/-- Overwrite one ogate slot of module `a`. -/
def setOgateSlot (g : Graph) (a : ModId) (k : Nat) (v : Option OGate) : Graph :=
  updMod g a fun m => { m with ogates := m.ogates.set k v }

/-- Overwrite one igate slot of module `b`. -/
def setIgateSlot (g : Graph) (b : ModId) (j : Nat) (v : Option IGate) : Graph :=
  updMod g b fun m => { m with igates := m.igates.set j v }

/-- Length of the igate array of a module (0 when the id does not resolve). -/
def igatesLen (g : Graph) (b : ModId) : Nat :=
  match findMod g b with
  | some m => m.igates.length
  | none => 0

/-- Length of the ogate array of a module. -/
def ogatesLen (g : Graph) (a : ModId) : Nat :=
  match findMod g a with
  | some m => m.ogates.length
  | none => 0

/-- Size loop of `grow_gates`: starting from the current size (or 1 when
the array is empty) double until the size exceeds the requested index.
The fuel argument (instantiated with `gate + 1`, which always suffices) only
makes the recursion structural. -/
def grow_size_loop : Nat → Nat → Nat → Nat
  | 0, sz, _ => sz
  | fuel + 1, sz, gate => if sz ≤ gate then grow_size_loop fuel (sz * 2) gate else sz

/-- Array part of `grow_gates` (module.c:266): compute the doubled size,
cap it at MAX_GATES, keep the old slots (rte_realloc) and zero-initialize
the new ones.  Allocation failure of the realloc is decided by the caller's
oracle before this function is applied. -/
def grow_gates {α : Type} (arr : List (Option α)) (gate : Nat) : List (Option α) :=
  let start := if arr.length = 0 then 1 else arr.length
  let nsz := min (grow_size_loop (gate + 1) start gate) MAX_GATES
  arr ++ List.replicate (nsz - arr.length) none

/-- Transcription of `connect_modules` (module.c:298).  The oracle entries
are consumed in the order the C code attempts allocations: ogate-array
realloc (only when growth is needed), igate-array realloc (only when
needed), the ogate `rte_zmalloc`, and the igate `rte_zmalloc` (only when
the igate slot is empty).  When the igate allocation fails the C code
frees the new ogate but leaves the slot `m_prev->ogates.arr[ogate_idx]`
pointing at it; the model keeps the zero-initialized gate installed in the
slot, mirroring the observable dangling state.  The catch-all arm for
unresolvable module ids is a model guard: C callers always pass valid
pointers. -/
def connect_modules (g : Graph) (aPrev : ModId) (ogateIdx : Nat)
    (aNext : ModId) (igateIdx : Nat) (al : Alloc) : Int × Graph × Alloc :=
  match findMod g aPrev, findMod g aNext with
  | some mPrev, some mNext =>
    if mNext.mclass.hasProcessBatch = false then (-EINVAL, g, al)
    else if mPrev.mclass.numOgates ≤ ogateIdx ∨ MAX_GATES ≤ ogateIdx then (-EINVAL, g, al)
    else if mNext.mclass.numIgates ≤ igateIdx ∨ MAX_GATES ≤ igateIdx then (-EINVAL, g, al)
    else
      let needO := mPrev.ogates.length ≤ ogateIdx
      match (if needO then allocOk al else (true, al)) with
      | (false, al1) => (-ENOMEM, g, al1)
      | (true, al1) =>
        let g1 := if needO then
            updMod g aPrev (fun m => { m with ogates := grow_gates m.ogates ogateIdx })
          else g
        if activeOgate g1 aPrev ogateIdx then (-EBUSY, g1, al1)
        else
          let needI := igatesLen g1 aNext ≤ igateIdx
          match (if needI then allocOk al1 else (true, al1)) with
          | (false, al2) => (-ENOMEM, g1, al2)
          | (true, al2) =>
            let g2 := if needI then
                updMod g1 aNext (fun m => { m with igates := grow_gates m.igates igateIdx })
              else g1
            match allocOk al2 with
            | (false, al3) => (-ENOMEM, g2, al3)
            | (true, al3) =>
              let g3 := setOgateSlot g2 aPrev ogateIdx (some { down := none })
              match igateAt g3 aNext igateIdx with
              | some ig =>
                let g5 := setOgateSlot g3 aPrev ogateIdx
                    (some { down := some { igateMod := aNext, igateIdx := igateIdx } })
                let g6 := setIgateSlot g5 aNext igateIdx
                    (some { upstream := ig.upstream ++ [(aPrev, ogateIdx)] })
                (0, g6, al3)
              | none =>
                match allocOk al3 with
                | (false, al4) => (-ENOMEM, g3, al4)
                | (true, al4) =>
                  let g4 := setIgateSlot g3 aNext igateIdx (some { upstream := [] })
                  let g5 := setOgateSlot g4 aPrev ogateIdx
                      (some { down := some { igateMod := aNext, igateIdx := igateIdx } })
                  let g6 := setIgateSlot g5 aNext igateIdx
                      (some { upstream := [(aPrev, ogateIdx)] })
                  (0, g6, al4)
  | _, _ => (-EINVAL, g, al)

/-- Transcription of `disconnect_modules` (module.c:364).  The two arms
marked unreachable correspond to C states (a zeroed gate in an active slot,
or a dangling downstream pointer) on which the C code's behaviour is
undefined; they cannot arise from consistent graphs. -/
def disconnect_modules (g : Graph) (aPrev : ModId) (ogateIdx : Nat) : Int × Graph :=
  match findMod g aPrev with
  | none => (-EINVAL, g)
  | some m =>
    if m.mclass.numOgates ≤ ogateIdx then (-EINVAL, g)
    else
      match (m.ogates.get? ogateIdx).getD none with
      | none => (0, g)
      | some og =>
        match og.down with
        | none => (0, setOgateSlot g aPrev ogateIdx none)
        | some t =>
          match igateAt g t.igateMod t.igateIdx with
          | none => (0, setOgateSlot g aPrev ogateIdx none)
          | some ig =>
            let up := ig.upstream.erase (aPrev, ogateIdx)
            let g1 := setIgateSlot g t.igateMod t.igateIdx
                (if up.isEmpty then none else some { upstream := up })
            (0, setOgateSlot g1 aPrev ogateIdx none)

/-- First empty task slot, as scanned by `register_task` (module.c:21). -/
def first_empty : List (Option Task) → Option Nat
  | [] => none
  | none :: _ => some 0
  | some _ :: rest => (first_empty rest).map (· + 1)

/-- Transcription of `register_task` (module.c:12).  `createOk` is the
allocation oracle for `task_create` and `t` the task handle it would
return; `none` models INVALID_TASK_ID. -/
def register_task (m : Module) (t : Task) (createOk : Bool) : Option (Nat × Module) :=
  if m.mclass.hasRunTask = false then none
  else
    match first_empty m.tasks with
    | none => none
    | some id =>
      if createOk = false then none
      else some (id, { m with tasks := m.tasks.set id (some t) })

/-- Transcription of `task_to_tid` (module.c:38): linear scan of the owning
module's slots for the task handle. -/
def task_to_tid (m : Module) (t : Task) : Option Nat :=
  scan m.tasks
where
  /-- Index of the first slot holding `t`. -/
  scan : List (Option Task) → Option Nat
    | [] => none
    | slot :: rest =>
      if slot = some t then some 0 else (scan rest).map (· + 1)

/-- Transcription of `num_module_tasks` (module.c:49). -/
def num_module_tasks (m : Module) : Nat :=
  m.tasks.countP Option.isSome

/-! Decimal rendering of naturals, as produced by `snprintf` with `%d`
(needed by `set_default_name` and by the logger's overflow notice).  The
fuel argument (`n + 1` always suffices) makes the recursion structural. -/

/-- Decimal digit list of `n`, most significant first. -/
def decDigits : Nat → Nat → List Char
  | 0, _ => []
  | fuel + 1, n =>
    if n < 10 then [Nat.digitChar n]
    else decDigits fuel (n / 10) ++ [Nat.digitChar (n % 10)]

/-- Decimal string of a natural number (`%d` of a non-negative int). -/
def natToDec (n : Nat) : String := ⟨decDigits (n + 1) n⟩

/-- Value recovered from a decimal digit list (used to prove `natToDec`
injective). -/
def decVal (l : List Char) : Nat :=
  l.foldl (fun a c => a * 10 + (c.toNat - 48)) 0

/-! Logger (src/core/log.c).  The thread-local per-priority buffers are a
list of `MAX_LOG_PRIORITY + 1` character lists; formatting (`vsnprintf`)
is abstracted by passing the already-formatted message, and the sink
`do_log` by returning the list of (priority, chunk) pairs handed to it. -/

/-- Value of `MAX_LOG_LEN` from the missing header log.h (the spec leaves
the exact value implementation-chosen; the claims do not depend on it). -/
def MAX_LOG_LEN : Nat := 2048

/-- Highest accepted priority (`LOG_DEBUG`). -/
def MAX_LOG_PRIORITY : Int := 7

/-- Priority used for the overflow notice (`LOG_ERR`). -/
def LOG_ERR : Int := 3

/-- Line-splitting loop of `log_vfmt` (log.c:102): repeatedly emit the
prefix up to and including the first newline; return the emitted chunks
and the remaining tail (the text after the last newline). -/
def split_lines : List Char → List (List Char) × List Char
  | [] => ([], [])
  | c :: rest =>
    let r := split_lines rest
    if c = '\n' then (['\n'] :: r.1, r.2)
    else
      match r.1 with
      | [] => ([], c :: r.2)
      | chunk :: cs => ((c :: chunk) :: cs, r.2)

/-- Text after the last newline of a string (what the buffer retains). -/
def after_last_nl (l : List Char) : List Char :=
  (l.reverse.takeWhile (fun c => c ≠ '\n')).reverse

/-- Overflow notice emitted by `log_vfmt` when the formatted message does
not fit (log.c:92). -/
def oversize_notice (n : Nat) : List Char :=
  "Too large log message: ".data ++ (natToDec n).data ++ " bytes\n".data

/-- Transcription of `_log` (log.c:116) composed with `log_vfmt`
(log.c:74): reject out-of-range priorities; append the formatted message
to the per-priority buffer unless it does not fit (in which case emit the
overflow notice at LOG_ERR and leave the buffer untouched); emit every
complete line and retain the tail.  The C `assert(free_space >=
MAX_LOG_LEN)` is a contract assertion and has no effect on the state. -/
def _log (st : List (List Char)) (p : Int) (msg : List Char) :
    List (Int × List Char) × List (List Char) :=
  if p < 0 ∨ MAX_LOG_PRIORITY < p then ([], st)
  else
    let buf := st.getD p.toNat []
    if 2 * MAX_LOG_LEN - buf.length ≤ msg.length then
      ([(LOG_ERR, oversize_notice msg.length)], st)
    else
      let s := split_lines (buf ++ msg)
      (s.1.map (fun c => (p, c)), st.set p.toNat s.2)

/-! Concrete objects used by witnesses and counterexamples. -/

/-- Concrete module class used by witnesses. -/
def srcClass : MClass :=
  { name := "Src", numIgates := 1, numOgates := 1,
    hasProcessBatch := true, hasRunTask := true, defModuleName := none }

/-- Freshly created module (all-zero gate arrays and task slots). -/
def freshMod (nm : String) : Module :=
  { name := nm, mclass := srcClass, ogates := [], igates := [],
    tasks := List.replicate MAX_TASKS_PER_MODULE none }

/-- One-module graph used by witnesses. -/
def wGraph : Graph := { mods := [(1, freshMod "s")], ns := [("s", 1)] }

/-- Module holding one registered task, used by witnesses. -/
def wTaskMod : Module :=
  { freshMod "s" with
    tasks := (List.replicate MAX_TASKS_PER_MODULE (none : Option Task)).set 0 (some 7) }

/-- Empty logger state (all eight per-priority buffers empty). -/
def wLogSt : List (List Char) := List.replicate 8 []

/-- Two fresh modules, used as the starting point of connect scenarios. -/
def cxGraph : Graph :=
  { mods := [(1, freshMod "a"), (2, freshMod "b")], ns := [("a", 1), ("b", 2)] }

/-- Result of connecting `cxGraph`'s module 1 (ogate 0) to module 2
(igate 0), written out explicitly (used by the round-trip witness). -/
def rtGraph : Graph :=
  { mods := [(1, { freshMod "a" with
                   ogates := [some { down := some { igateMod := 2, igateIdx := 0 } }] }),
             (2, { freshMod "b" with
                   igates := [some { upstream := [(1, 0)] }] })],
    ns := [("a", 1), ("b", 2)] }

/-- Variant of `cxGraph` whose second module carries an active igate with
an empty upstream set — a state outside the C representation invariant. -/
def cx2Graph : Graph :=
  { mods := [(1, freshMod "a"),
             (2, { freshMod "b" with igates := [some { upstream := [] }] })],
    ns := [("a", 1), ("b", 2)] }

/-! Gate-consistency invariants. -/

/-- Bidirectional gate consistency as stated by the spec: (1) every active
ogate references an active downstream igate whose upstream set contains
it, and (2) every ogate in an active igate's upstream set references that
igate as its downstream igate. -/
def gate_invariant (g : Graph) : Prop :=
  (∀ a k og, ogateAt g a k = some og →
    ∃ t, og.down = some t ∧
      ∃ ig, igateAt g t.igateMod t.igateIdx = some ig ∧ (a, k) ∈ ig.upstream) ∧
  (∀ b j ig, igateAt g b j = some ig →
    ∀ p, p ∈ ig.upstream → ∀ og, ogateAt g p.1 p.2 = some og →
      og.down = some { igateMod := b, igateIdx := j })

/-- Representation invariant of consistent graphs, as maintained by the C
code: `gate_invariant` strengthened with the facts that are automatic for
the C pointer structures — every active ogate's index is below its class's
`num_ogates` (enforced at connect time, spec invariant 4), upstream lists
link distinct ogate objects (`Nodup`), and every upstream entry denotes a
live (active) ogate. -/
def gates_consistent (g : Graph) : Prop :=
  (∀ a k og, ogateAt g a k = some og →
    (∀ ma, findMod g a = some ma → k < ma.mclass.numOgates) ∧
    ∃ t, og.down = some t ∧
      ∃ ig, igateAt g t.igateMod t.igateIdx = some ig ∧ (a, k) ∈ ig.upstream) ∧
  (∀ b j ig, igateAt g b j = some ig →
    ig.upstream.Nodup ∧
    ∀ p, p ∈ ig.upstream → ∃ og, ogateAt g p.1 p.2 = some og ∧
      og.down = some { igateMod := b, igateIdx := j })

/-- Weak invariant used by the round-trip law: every active igate has a
nonempty upstream set (C frees an igate as soon as its set empties). -/
def active_igates_nonempty (g : Graph) : Prop :=
  ∀ b j ig, igateAt g b j = some ig → ig.upstream ≠ []

/-! Namespace and module lifecycle (module.c; the namespace itself is
namespace.c, which is not under src/). -/

/-- Modelled from the spec: `ns_lookup(NS_TYPE_MODULE, name)` of the
missing namespace.c — byte-exact name lookup in the typed registry. -/
def ns_lookup : List (String × ModId) → String → Option ModId
  | [], _ => none
  | (k, v) :: rest, nm => if nm = k then some v else ns_lookup rest nm

/-- Modelled from the spec: `ns_remove(name)` of the missing namespace.c —
remove the (unique) binding of a name. -/
def ns_remove : List (String × ModId) → String → List (String × ModId)
  | [], _ => []
  | (k, v) :: rest, nm => if k = nm then rest else (k, v) :: ns_remove rest nm

/-- Transcription of `find_module` (module.c:496). -/
def find_module (g : Graph) (nm : String) : Option ModId :=
  ns_lookup g.ns nm

/-- Remove a module object from the store (the `rte_free(m)` of
`destroy_module`; module ids are unique, as heap addresses are). -/
def removeMod : List (ModId × Module) → ModId → List (ModId × Module)
  | [], _ => []
  | (k, m) :: rest, mid =>
    if k = mid then removeMod rest mid else (k, m) :: removeMod rest mid

/-- C `islower` (C locale). -/
def c_islower (c : Char) : Bool := 'a' ≤ c && c ≤ 'z'

/-- C `isupper` (C locale). -/
def c_isupper (c : Char) : Bool := 'A' ≤ c && c ≤ 'Z'

/-- C `tolower` (C locale). -/
def c_tolower (c : Char) : Char :=
  if c_isupper c then Char.ofNat (c.toNat + 32) else c

/-- CamelCase-to-snake_case loop of `set_default_name` (module.c:105):
insert `_` before an uppercase letter that follows a lowercase letter,
lowercasing every character.  `prev` is the previous (untranslated)
character, `none` at the start of the template. -/
def camel_aux : Option Char → List Char → List Char
  | _, [] => []
  | prev, c :: rest =>
    (if (match prev with
         | some p => c_islower p && c_isupper c
         | none => false) = true
     then ['_', c_tolower c] else [c_tolower c]) ++ camel_aux (some c) rest

/-- CamelCase → snake_case conversion of `set_default_name`. -/
def camel_to_snake (s : String) : String := ⟨camel_aux none s.data⟩

/-- Name template used by `set_default_name` before the `%d` suffix:
`def_module_name` when the class provides one, else the converted class
name (module.c:92-113). -/
def default_name_base (mc : MClass) : String :=
  match mc.defModuleName with
  | some d => d
  | none => camel_to_snake mc.name

/-- Probe loop of `set_default_name` (module.c:118): try suffixes
`start, start+1, …` until a name is unbound.  The C loop is unbounded; the
fuel only makes the recursion structural, and `g.ns.length + 1` is always
enough fuel (proved below). -/
def probe_name (g : Graph) (base : String) : Nat → Nat → Option Nat
  | 0, _ => none
  | fuel + 1, k =>
    if find_module g (base ++ natToDec k) = none then some k
    else probe_name g base fuel (k + 1)

/-- Transcription of `set_default_name` (module.c:86).  The `none` arm is
unreachable: the probe always succeeds with the given fuel. -/
def set_default_name (g : Graph) (mc : MClass) : String :=
  let base := default_name_base mc
  match probe_name g base (g.ns.length + 1) 0 with
  | some k => base ++ natToDec k
  | none => base

/-- Transcription of `create_module` (module.c:158).  `initErr` stands for
the error object the class `init` hook returns (`none` for success, and
for an absent hook); the oracle feeds the module and name allocations.
Name truncation to MODULE_NAME_LEN (an `assert`ed contract bound in C) is
not modelled.  Every failure path frees the partial instance and leaves
the graph unchanged. -/
def create_module (g : Graph) (name : Option String) (mc : MClass)
    (initErr : Option Int) (al : Alloc) (nid : ModId) :
    Option ModId × Option Int × Graph × Alloc :=
  if (match name with
      | some nm => (find_module g nm).isSome
      | none => false) = true then
    (none, some EEXIST, g, al)
  else
    match allocOk al with
    | (false, al1) => (none, some ENOMEM, g, al1)
    | (true, al1) =>
      match allocOk al1 with
      | (false, al2) => (none, some ENOMEM, g, al2)
      | (true, al2) =>
        let nm := match name with
          | some s => s
          | none => set_default_name g mc
        match initErr with
        | some e => (none, some e, g, al2)
        | none =>
          if (find_module g nm).isSome then (none, some EEXIST, g, al2)
          else
            (some nid, none,
             { mods := (nid,
                 { name := nm, mclass := mc, ogates := [], igates := [],
                   tasks := List.replicate MAX_TASKS_PER_MODULE none }) :: g.mods,
               ns := (nm, nid) :: g.ns }, al2)

/-- Transcription of `destroy_module` (module.c:230): run `deinit`
(external, no effect on the graph), disconnect every upstream ogate of
every active igate (iterating over the current upstream list, as the
`cdlist_for_each_entry_safe` walk does), disconnect every ogate slot,
destroy all tasks, remove the name from the namespace, free the
instance. -/
def destroy_module (g : Graph) (mid : ModId) : Graph :=
  match findMod g mid with
  | none => g
  | some m =>
    let g1 := (List.range m.igates.length).foldl
      (fun acc i =>
        match igateAt acc mid i with
        | some ig => ig.upstream.foldl
            (fun acc2 p => (disconnect_modules acc2 p.1 p.2).2) acc
        | none => acc) g
    let olen := match findMod g1 mid with
      | some m1 => m1.ogates.length
      | none => 0
    let g2 := (List.range olen).foldl
      (fun acc i => (disconnect_modules acc mid i).2) g1
    { mods := removeMod g2.mods mid, ns := ns_remove g2.ns m.name }

/-- Modelled from the claim's words (C4): the expected result of
`connect_modules`, checking in order — no `process_batch` on the
downstream class (-EINVAL); ogate index out of class range or ≥ MAX_GATES
(-EINVAL); igate index likewise (-EINVAL); ogate-array growth failure
(-ENOMEM, attempted only when growth is needed); ogate slot already
active (-EBUSY); igate-array growth failure (-ENOMEM); then 0 exactly
when the remaining gate allocations (the ogate, and the igate when the
slot is empty) succeed, -ENOMEM otherwise. -/
def connect_result_spec (g : Graph) (aPrev : ModId) (ogateIdx : Nat)
    (aNext : ModId) (igateIdx : Nat) (al : Alloc)
    (mPrev mNext : Module) : Int :=
  if mNext.mclass.hasProcessBatch = false then -EINVAL
  else if mPrev.mclass.numOgates ≤ ogateIdx ∨ MAX_GATES ≤ ogateIdx then -EINVAL
  else if mNext.mclass.numIgates ≤ igateIdx ∨ MAX_GATES ≤ igateIdx then -EINVAL
  else
    let r1 := if mPrev.ogates.length ≤ ogateIdx then allocOk al else (true, al)
    if r1.1 = false then -ENOMEM
    else if activeOgate g aPrev ogateIdx = true then -EBUSY
    else
      let r2 := if igatesLen g aNext ≤ igateIdx then allocOk r1.2 else (true, r1.2)
      if r2.1 = false then -ENOMEM
      else
        let r3 := allocOk r2.2
        if r3.1 = false then -ENOMEM
        else
          let r4 := if igateAt g aNext igateIdx = none then allocOk r3.2
                    else (true, r3.2)
          if r4.1 = false then -ENOMEM else 0

/-- Module class with a CamelCase name and no default instance name, used
by the name-defaulting scenario. -/
def myIPClass : MClass :=
  { name := "MyIPChecksum", numIgates := 1, numOgates := 1,
    hasProcessBatch := true, hasRunTask := false, defModuleName := none }

/-- Empty graph. -/
def emptyGraph : Graph := { mods := [], ns := [] }

/-- Name-defaulting scenario: three null-name creates, destroy the middle
module, then a fourth create. -/
def c6g1 : Graph := (create_module emptyGraph none myIPClass none [] 1).2.2.1

/-- Second null-name create of the scenario. -/
def c6g2 : Graph := (create_module c6g1 none myIPClass none [] 2).2.2.1

/-- Third null-name create of the scenario. -/
def c6g3 : Graph := (create_module c6g2 none myIPClass none [] 3).2.2.1

/-- State after destroying the middle module of the scenario. -/
def c6g4 : Graph := destroy_module c6g3 2

/-- State after the fourth null-name create of the scenario. -/
def c6g5 : Graph := (create_module c6g4 none myIPClass none [] 4).2.2.1

/-! Helper lemmas about the task-slot scan. -/

theorem first_empty_eq_none_iff (l : List (Option Task)) :
    first_empty l = none ↔ ∀ s ∈ l, s.isSome := by
  induction l with
  | nil => simp [first_empty]
  | cons s rest ih =>
    cases s with
    | none => simp [first_empty]
    | some u => simpa [first_empty] using ih

theorem first_empty_eq_some (l : List (Option Task)) (id : Nat)
    (h : first_empty l = some id) :
    l.get? id = some none ∧ ∀ j, j < id → ∃ u, l.get? j = some (some u) := by
  induction l generalizing id with
  | nil => simp [first_empty] at h
  | cons s rest ih =>
    cases s with
    | none =>
      simp [first_empty] at h
      subst h
      exact ⟨rfl, by omega⟩
    | some u =>
      simp [first_empty] at h
      obtain ⟨id', hid', rfl⟩ := h
      obtain ⟨h1, h2⟩ := ih id' hid'
      refine ⟨h1, ?_⟩
      intro j hj
      cases j with
      | zero => exact ⟨u, rfl⟩
      | succ j' => exact h2 j' (by omega)

theorem scan_set (t : Task) (l : List (Option Task)) (id : Nat)
    (hid : id < l.length) (hfresh : ∀ s ∈ l, s ≠ some t) :
    task_to_tid.scan t (l.set id (some t)) = some id := by
  induction l generalizing id with
  | nil => simp at hid
  | cons s rest ih =>
    cases id with
    | zero => simp [task_to_tid.scan]
    | succ id' =>
      have hs : s ≠ some t := hfresh s (by simp)
      have : task_to_tid.scan t (rest.set id' (some t)) = some id' :=
        ih id' (by simpa using hid) (fun x hx => hfresh x (by simp [hx]))
      simp [task_to_tid.scan, hs, this]

/-- C7: `register_task(m, arg)` returns INVALID_TASK_ID exactly when the
class has no `run_task` hook, when all task slots are occupied, or when
task creation fails; on success it stores the new task in the
lowest-index empty slot, returns that index, and leaves everything else
unchanged. -/
theorem register_task_spec (m : Module) (t : Task) (ok : Bool)
    (_hlen : m.tasks.length = MAX_TASKS_PER_MODULE) :
    (register_task m t ok = none ↔
      m.mclass.hasRunTask = false ∨ (∀ s ∈ m.tasks, s.isSome) ∨ ok = false) ∧
    (∀ id m', register_task m t ok = some (id, m') →
      m.tasks.get? id = some none ∧
      (∀ j, j < id → ∃ u, m.tasks.get? j = some (some u)) ∧
      m'.tasks = m.tasks.set id (some t) ∧
      m'.name = m.name ∧ m'.mclass = m.mclass ∧
      m'.ogates = m.ogates ∧ m'.igates = m.igates) := by
  constructor
  · unfold register_task
    split
    · next h => simp [h]
    · next h =>
      split
      · next hfe =>
        have hall := (first_empty_eq_none_iff m.tasks).mp hfe
        simp only [true_iff]
        exact Or.inr (Or.inl hall)
      · next id0 hfe =>
        have hne : ¬ ∀ s ∈ m.tasks, s.isSome = true := by
          intro hall
          rw [← first_empty_eq_none_iff] at hall
          rw [hall] at hfe; cases hfe
        split
        · next hok => simp [hok, hne, h]
        · next hok => simp [hok, hne, h]
  · intro id m' hreg
    unfold register_task at hreg
    split at hreg
    · cases hreg
    · split at hreg
      · cases hreg
      · next id0 hfe =>
        split at hreg
        · cases hreg
        · obtain ⟨rfl, rfl⟩ := Prod.mk.injEq .. ▸ Option.some.injEq .. ▸ hreg
          obtain ⟨h1, h2⟩ := first_empty_eq_some m.tasks id0 hfe
          exact ⟨h1, h2, rfl, rfl, rfl, rfl, rfl⟩

/-- Witness for `register_task_spec` on a concrete module. -/
theorem register_task_spec_witness :
    wTaskMod.tasks = (freshMod "s").tasks.set 0 (some 7) ∧
    (freshMod "s").tasks.get? 0 = some none := by
  have h := (register_task_spec (freshMod "s") 7 true (by decide)).2 0 wTaskMod (by decide)
  exact ⟨h.2.2.1, h.1⟩

/-- C9: whenever `register_task` succeeds, storing the (fresh) task `t` at
slot `id`, a subsequent `task_to_tid(t)` returns exactly `id`, for every
prior occupancy of the task slots.  Freshness of `t` (the handle differs
from every task already stored) reflects that `task_create` returns a new
heap object distinct from every live task. -/
theorem task_to_tid_after_register (m : Module) (t : Task) (ok : Bool)
    (id : Nat) (m' : Module)
    (hfresh : ∀ s ∈ m.tasks, s ≠ some t)
    (hreg : register_task m t ok = some (id, m')) :
    task_to_tid m' t = some id := by
  unfold register_task at hreg
  split at hreg
  · cases hreg
  · split at hreg
    · cases hreg
    · next id0 hfe =>
      split at hreg
      · cases hreg
      · obtain ⟨rfl, rfl⟩ := Prod.mk.injEq .. ▸ Option.some.injEq .. ▸ hreg
        have hid : id0 < m.tasks.length := by
          have h1 := (first_empty_eq_some m.tasks id0 hfe).1
          by_contra hge
          rw [List.get?_eq_none.mpr (by omega)] at h1
          cases h1
        unfold task_to_tid
        exact scan_set t m.tasks id0 hid hfresh

/-- Witness for `task_to_tid_after_register` on a concrete module. -/
theorem task_to_tid_after_register_witness :
    task_to_tid wTaskMod 7 = some 0 :=
  task_to_tid_after_register (freshMod "s") 7 true 0 wTaskMod
    (fun s hs => by
      have hs0 : s = none := List.eq_of_mem_replicate hs
      simp [hs0])
    (by decide)

/-- C8: `disconnect_modules(m_prev, ogate_idx)` returns -EINVAL whenever
the index is at least the class's `num_ogates`; below that bound an
inactive slot is a no-op success: it returns 0 and the graph is
unchanged. -/
theorem disconnect_modules_invalid_or_noop (g : Graph) (a : ModId) (k : Nat)
    (m : Module) (hm : findMod g a = some m) :
    (m.mclass.numOgates ≤ k → disconnect_modules g a k = (-EINVAL, g)) ∧
    (k < m.mclass.numOgates → activeOgate g a k = false →
      disconnect_modules g a k = (0, g)) := by
  constructor
  · intro h
    unfold disconnect_modules
    rw [hm]
    simp only [if_pos h]
  · intro h1 h2
    rcases hsl : (m.ogates.get? k).getD none with _ | og
    · unfold disconnect_modules
      simp only [hm]
      rw [if_neg (Nat.not_le.mpr h1)]
      rw [hsl]
    · exfalso
      have hact : activeOgate g a k = true := by
        unfold activeOgate ogateAt
        simp only [hm]
        rw [hsl]
        rfl
      rw [hact] at h2
      cases h2

/-- Witness for `disconnect_modules_invalid_or_noop` on a one-module
graph. -/
theorem disconnect_modules_invalid_or_noop_witness :
    disconnect_modules wGraph 1 5 = (-EINVAL, wGraph) ∧
    disconnect_modules wGraph 1 0 = (0, wGraph) :=
  ⟨(disconnect_modules_invalid_or_noop wGraph 1 5 (freshMod "s") (by decide)).1 (by decide),
   (disconnect_modules_invalid_or_noop wGraph 1 0 (freshMod "s") (by decide)).2
     (by decide) (by decide)⟩

/-! Helper lemmas about `takeWhile`, `after_last_nl` and `split_lines`. -/

theorem takeWhile_of_all {α : Type} (P : α → Bool) :
    ∀ x : List α, (∀ a ∈ x, P a) → x.takeWhile P = x := by
  intro x
  induction x with
  | nil => intro _; rfl
  | cons a x' ih =>
    intro h
    have ha : P a = true := h a (by simp)
    simp [List.takeWhile, ha, ih fun b hb => h b (by simp [hb])]

theorem takeWhile_append_of_all {α : Type} (P : α → Bool) :
    ∀ x y : List α, (∀ a ∈ x, P a) →
      (x ++ y).takeWhile P = x ++ y.takeWhile P := by
  intro x y
  induction x with
  | nil => intro _; rfl
  | cons a x' ih =>
    intro h
    have ha : P a = true := h a (by simp)
    simp [List.takeWhile, ha]
    exact ih fun b hb => h b (by simp [hb])

theorem takeWhile_append_of_stop {α : Type} (P : α → Bool) :
    ∀ x y : List α, (∃ a ∈ x, ¬ P a = true) →
      (x ++ y).takeWhile P = x.takeWhile P := by
  intro x y
  induction x with
  | nil => intro h; simp at h
  | cons a x' ih =>
    intro h
    rcases hPa : P a with _ | _
    · simp [List.takeWhile, hPa]
    · obtain ⟨b, hb, hPb⟩ := h
      rcases List.mem_cons.mp hb with rfl | hb'
      · rw [hPa] at hPb; simp at hPb
      · simp [List.takeWhile, hPa]
        exact ih ⟨b, hb', hPb⟩

theorem after_last_nl_of_no_nl (l : List Char) (h : '\n' ∉ l) :
    after_last_nl l = l := by
  unfold after_last_nl
  rw [takeWhile_of_all _ _ (fun a ha => by
    have : a ∈ l := List.mem_reverse.mp ha
    simp only [decide_eq_true_eq]
    rintro rfl
    exact h this)]
  exact List.reverse_reverse l

theorem after_last_nl_cons_of_mem (c : Char) (rest : List Char)
    (h : '\n' ∈ rest) : after_last_nl (c :: rest) = after_last_nl rest := by
  unfold after_last_nl
  rw [List.reverse_cons]
  rw [takeWhile_append_of_stop _ _ _
    ⟨'\n', List.mem_reverse.mpr h, by simp⟩]

theorem after_last_nl_nl_cons (rest : List Char) (h : '\n' ∉ rest) :
    after_last_nl ('\n' :: rest) = rest := by
  unfold after_last_nl
  rw [List.reverse_cons]
  rw [takeWhile_append_of_all _ _ _ (fun a ha => by
    have : a ∈ rest := List.mem_reverse.mp ha
    simp only [decide_eq_true_eq]
    rintro rfl
    exact h this)]
  simp

theorem split_lines_chunk_ends_nl :
    ∀ l : List Char, ∀ ch ∈ (split_lines l).1,
      ch ≠ [] ∧ ch.getLast? = some '\n' := by
  intro l
  induction l with
  | nil => intro ch hch; simp [split_lines] at hch
  | cons c rest ih =>
    intro ch hch
    by_cases hc : c = '\n'
    · subst hc
      simp only [split_lines, if_pos rfl] at hch
      rcases List.mem_cons.mp hch with rfl | hch'
      · exact ⟨by simp, rfl⟩
      · exact ih ch hch'
    · rcases hr : (split_lines rest).1 with _ | ⟨chunk, cs⟩
      · simp only [split_lines, if_neg hc, hr] at hch
        simp at hch
      · simp only [split_lines, if_neg hc, hr] at hch
        rcases List.mem_cons.mp hch with rfl | hch'
        · have hchunk := ih chunk (by rw [hr]; simp)
          rcases hne : chunk with _ | ⟨d, ds⟩
          · rw [hne] at hchunk; simp at hchunk
          · refine ⟨by simp, ?_⟩
            rw [List.getLast?_cons_cons, ← hne]
            exact hchunk.2
        · exact ih ch (by rw [hr]; exact List.mem_cons_of_mem _ hch')

theorem split_lines_rest_no_nl : ∀ l : List Char, '\n' ∉ (split_lines l).2 := by
  intro l
  induction l with
  | nil => simp [split_lines]
  | cons c rest ih =>
    by_cases hc : c = '\n'
    · subst hc; simpa [split_lines] using ih
    · rcases hr : (split_lines rest).1 with _ | ⟨chunk, cs⟩
      · simp only [split_lines, if_neg hc, hr]
        intro hmem
        rcases List.mem_cons.mp hmem with heq | hmem'
        · exact hc heq.symm
        · exact ih hmem'
      · simpa [split_lines, if_neg hc, hr] using ih

theorem split_lines_chunks_nil_iff :
    ∀ l : List Char, (split_lines l).1 = [] ↔ '\n' ∉ l := by
  intro l
  induction l with
  | nil => simp [split_lines]
  | cons c rest ih =>
    by_cases hc : c = '\n'
    · subst hc; simp [split_lines]
    · rcases hr : (split_lines rest).1 with _ | ⟨chunk, cs⟩
      · simp only [split_lines, if_neg hc, hr]
        simp only [hr, true_iff] at ih
        simp [hc, ih]
        exact fun h => hc h.symm
      · simp only [split_lines, if_neg hc, hr]
        constructor
        · intro h
          exact (List.cons_ne_nil _ _ h).elim
        · intro h
          exfalso
          have hnr : '\n' ∉ rest := fun hm => h (List.mem_cons_of_mem _ hm)
          have h0 : (split_lines rest).1 = [] := ih.mpr hnr
          rw [hr] at h0
          exact List.cons_ne_nil _ _ h0

theorem split_lines_rest_eq :
    ∀ l : List Char, (split_lines l).2 = after_last_nl l := by
  intro l
  induction l with
  | nil => simp [split_lines, after_last_nl]
  | cons c rest ih =>
    by_cases hc : c = '\n'
    · subst hc
      by_cases hm : '\n' ∈ rest
      · rw [after_last_nl_cons_of_mem _ _ hm]
        simpa [split_lines] using ih
      · rw [after_last_nl_nl_cons _ hm]
        have : (split_lines rest).2 = rest := by
          rw [ih, after_last_nl_of_no_nl _ hm]
        simpa [split_lines] using this
    · rcases hr : (split_lines rest).1 with _ | ⟨chunk, cs⟩
      · have hnr : '\n' ∉ rest := (split_lines_chunks_nil_iff rest).mp hr
        have hnc : '\n' ∉ c :: rest := by
          intro h
          rcases List.mem_cons.mp h with heq | h2
          · exact hc heq.symm
          · exact hnr h2
        rw [after_last_nl_of_no_nl _ hnc]
        simp only [split_lines, if_neg hc, hr]
        rw [ih, after_last_nl_of_no_nl _ hnr]
      · have hmr : '\n' ∈ rest := by
          by_contra hnr
          rw [← split_lines_chunks_nil_iff, hr] at hnr
          cases hnr
        rw [after_last_nl_cons_of_mem _ _ hmr]
        simp only [split_lines, if_neg hc, hr]
        exact ih

/-- C10: the logger emits only complete lines: every chunk `_log` hands
to the sink ends with a newline; after the call the per-priority buffer
holds exactly the text after the last newline of (old buffer ++ message)
and contains no newline, other priorities' buffers are untouched; a
message too large for the remaining space leaves all buffers unchanged;
and an out-of-range priority makes `_log` a no-op. -/
theorem log_emits_complete_lines (st : List (List Char)) (p : Int)
    (msg : List Char) (hlen : st.length = 8) :
    (∀ pr ch, (pr, ch) ∈ (_log st p msg).1 → ch ≠ [] ∧ ch.getLast? = some '\n') ∧
    ((p < 0 ∨ MAX_LOG_PRIORITY < p) → _log st p msg = ([], st)) ∧
    (0 ≤ p → p ≤ MAX_LOG_PRIORITY →
      (2 * MAX_LOG_LEN - (st.getD p.toNat []).length ≤ msg.length →
        (_log st p msg).2 = st) ∧
      (msg.length < 2 * MAX_LOG_LEN - (st.getD p.toNat []).length →
        (_log st p msg).2.getD p.toNat [] =
          after_last_nl (st.getD p.toNat [] ++ msg) ∧
        '\n' ∉ (_log st p msg).2.getD p.toNat [] ∧
        ∀ q, q ≠ p.toNat → (_log st p msg).2.getD q [] = st.getD q [])) := by
  by_cases hp : p < 0 ∨ MAX_LOG_PRIORITY < p
  · have hlog : _log st p msg = ([], st) := by
      unfold _log; rw [if_pos hp]
    refine ⟨?_, fun _ => hlog, ?_⟩
    · intro pr ch hch; rw [hlog] at hch; simp at hch
    · intro h0 h7
      exfalso
      have hp' : p < 0 ∨ (7 : Int) < p := hp
      have h7' : p ≤ (7 : Int) := h7
      omega
  · have hp2 : ¬(p < 0 ∨ (7 : Int) < p) := hp
    by_cases hov : 2 * MAX_LOG_LEN - (st.getD p.toNat []).length ≤ msg.length
    · have hlog : _log st p msg = ([(LOG_ERR, oversize_notice msg.length)], st) := by
        unfold _log
        rw [if_neg hp, if_pos hov]
      refine ⟨?_, ?_, ?_⟩
      · intro pr ch hch
        rw [hlog] at hch
        simp at hch
        obtain ⟨-, rfl⟩ := hch
        constructor
        · simp [oversize_notice]
        · unfold oversize_notice
          rw [List.getLast?_append_of_ne_nil _ (by simp)]
          rfl
      · intro h; exact absurd h hp
      · intro _ _
        refine ⟨fun _ => by rw [hlog], fun hlt => absurd hov (Nat.not_le.mpr hlt)⟩
    · have hlog : _log st p msg =
          ((split_lines (st.getD p.toNat [] ++ msg)).1.map (fun c => (p, c)),
           st.set p.toNat (split_lines (st.getD p.toNat [] ++ msg)).2) := by
        unfold _log
        rw [if_neg hp, if_neg hov]
      have hidx : p.toNat < st.length := by
        rw [hlen]
        omega
      refine ⟨?_, ?_, ?_⟩
      · intro pr ch hch
        rw [hlog] at hch
        simp only [List.mem_map] at hch
        obtain ⟨ch', hch', heq⟩ := hch
        obtain ⟨-, rfl⟩ := Prod.mk.injEq .. ▸ heq
        exact split_lines_chunk_ends_nl _ ch' hch'
      · intro h; exact absurd h hp
      · intro _ _
        refine ⟨fun hge => absurd hge hov, fun _ => ⟨?_, ?_, ?_⟩⟩
        · rw [hlog]
          simp only [List.getD_eq_getElem?_getD]
          rw [List.getElem?_set_self hidx]
          simp [split_lines_rest_eq]
        · rw [hlog]
          simp only [List.getD_eq_getElem?_getD]
          rw [List.getElem?_set_self hidx]
          simpa using split_lines_rest_no_nl (st.getD p.toNat [] ++ msg)
        · intro q hq
          rw [hlog]
          simp only [List.getD_eq_getElem?_getD]
          rw [List.getElem?_set_ne (Ne.symm hq)]

/-- Witness for `log_emits_complete_lines` at priority 3 on the empty
logger state. -/
theorem log_emits_complete_lines_witness :
    (_log wLogSt 3 ("ab\ncd".data)).2.getD (3 : Int).toNat [] =
      after_last_nl (wLogSt.getD (3 : Int).toNat [] ++ "ab\ncd".data) :=
  (((log_emits_complete_lines wLogSt 3 ("ab\ncd".data) (by decide)).2.2
      (by decide) (by decide)).2 (by decide)).1

/-- C1 (code bug): on the path where the igate allocation fails,
`connect_modules` frees the freshly installed ogate but leaves
`m_prev->ogates.arr[ogate_idx]` pointing at it (module.c:333,339-340),
so the call returns -ENOMEM with an active ogate slot whose downstream
reference is invalid: bidirectional gate consistency is NOT preserved by
every call that returns an error.  Starting from two fresh consistent
modules and an allocation oracle failing the fourth allocation (the igate
`rte_zmalloc`), the invariant holds before the call and fails after it. -/
theorem connect_igate_alloc_failure_breaks_invariant :
    (connect_modules cxGraph 1 0 2 0 [true, true, true, false]).1 = -ENOMEM ∧
    gate_invariant cxGraph ∧
    ¬ gate_invariant (connect_modules cxGraph 1 0 2 0 [true, true, true, false]).2.1 := by
  refine ⟨by decide, ⟨?_, ?_⟩, ?_⟩
  · intro a k og h
    exfalso
    have hnone : ogateAt cxGraph a k = none := by
      unfold ogateAt findMod
      by_cases h1 : a = 1
      · subst h1; simp [findMod.lookupMod, cxGraph, freshMod]
      · by_cases h2 : a = 2
        · subst h2; simp [findMod.lookupMod, cxGraph, freshMod]
        · simp [findMod.lookupMod, cxGraph, h1, h2]
    rw [hnone] at h
    cases h
  · intro b j ig h
    exfalso
    have hnone : igateAt cxGraph b j = none := by
      unfold igateAt findMod
      by_cases h1 : b = 1
      · subst h1; simp [findMod.lookupMod, cxGraph, freshMod]
      · by_cases h2 : b = 2
        · subst h2; simp [findMod.lookupMod, cxGraph, freshMod]
        · simp [findMod.lookupMod, cxGraph, h1, h2]
    rw [hnone] at h
    cases h
  · intro hinv
    obtain ⟨t, ht, -⟩ := hinv.1 1 0 { down := none } (by decide)
    exact Option.noConfusion ht

/-! Lemma kit for graph updates (lookup/update commutation, gate-slot
accessors, array growth). -/

theorem lookupMod_cons (k : ModId) (m : Module) (rest : List (ModId × Module))
    (c : ModId) :
    findMod.lookupMod ((k, m) :: rest) c =
      if c = k then some m else findMod.lookupMod rest c := rfl

theorem lookupMod_map_upd (l : List (ModId × Module)) (x : ModId)
    (f : Module → Module) (c : ModId) :
    findMod.lookupMod (l.map fun p => if p.1 = x then (p.1, f p.2) else p) c =
      if c = x then (findMod.lookupMod l x).map f else findMod.lookupMod l c := by
  induction l with
  | nil =>
    simp only [List.map_nil]
    split <;> rfl
  | cons hd rest ih =>
    obtain ⟨k, m⟩ := hd
    by_cases hkx : k = x
    · subst hkx
      simp only [List.map_cons, if_pos rfl]
      by_cases hck : c = k
      · subst hck
        simp [findMod.lookupMod]
      · simp [findMod.lookupMod, hck, ih]
    · simp only [List.map_cons, if_neg hkx]
      by_cases hck : c = k
      · subst hck
        have hcx : ¬ c = x := fun h => hkx (h ▸ rfl)
        simp [findMod.lookupMod, hcx]
      · simp only [findMod.lookupMod, if_neg hck]
        rw [ih]
        by_cases hcx : c = x
        · subst hcx
          rw [if_pos rfl, if_pos rfl, if_neg hck]
        · simp [hcx]

theorem findMod_updMod (g : Graph) (x : ModId) (f : Module → Module) (c : ModId) :
    findMod (updMod g x f) c =
      if c = x then (findMod g x).map f else findMod g c := by
  unfold findMod updMod
  exact lookupMod_map_upd g.mods x f c

theorem ogateAt_updMod (g : Graph) (x : ModId) (f : Module → Module)
    (c : ModId) (k : Nat) :
    ogateAt (updMod g x f) c k =
      if c = x then
        (match findMod g x with
         | some m => (((f m).ogates.get? k).getD none)
         | none => none)
      else ogateAt g c k := by
  unfold ogateAt
  rw [findMod_updMod]
  by_cases hcx : c = x
  · subst hcx
    simp only [if_pos rfl]
    cases findMod g c <;> rfl
  · simp [hcx]

theorem igateAt_updMod (g : Graph) (x : ModId) (f : Module → Module)
    (c : ModId) (k : Nat) :
    igateAt (updMod g x f) c k =
      if c = x then
        (match findMod g x with
         | some m => (((f m).igates.get? k).getD none)
         | none => none)
      else igateAt g c k := by
  unfold igateAt
  rw [findMod_updMod]
  by_cases hcx : c = x
  · subst hcx
    simp only [if_pos rfl]
    cases findMod g c <;> rfl
  · simp [hcx]

theorem ogateAt_setIgateSlot (g : Graph) (b : ModId) (j : Nat)
    (v : Option IGate) (c : ModId) (k : Nat) :
    ogateAt (setIgateSlot g b j v) c k = ogateAt g c k := by
  unfold setIgateSlot
  rw [ogateAt_updMod]
  by_cases hcb : c = b
  · subst hcb
    rw [if_pos rfl]
    unfold ogateAt
    cases findMod g c <;> rfl
  · simp [hcb]

theorem igateAt_setOgateSlot (g : Graph) (a : ModId) (k : Nat)
    (v : Option OGate) (c : ModId) (j : Nat) :
    igateAt (setOgateSlot g a k v) c j = igateAt g c j := by
  unfold setOgateSlot
  rw [igateAt_updMod]
  by_cases hca : c = a
  · subst hca
    rw [if_pos rfl]
    unfold igateAt
    cases findMod g c <;> rfl
  · simp [hca]

theorem ogateAt_setOgateSlot_self (g : Graph) (a : ModId) (k : Nat)
    (v : Option OGate) (m : Module) (hm : findMod g a = some m)
    (hk : k < m.ogates.length) :
    ogateAt (setOgateSlot g a k v) a k = v := by
  unfold setOgateSlot
  rw [ogateAt_updMod, if_pos rfl, hm]
  simp [List.getElem?_set_self hk]

theorem ogateAt_setOgateSlot_ne (g : Graph) (a : ModId) (k : Nat)
    (v : Option OGate) (c : ModId) (l : Nat) (h : ¬(c = a ∧ l = k)) :
    ogateAt (setOgateSlot g a k v) c l = ogateAt g c l := by
  unfold setOgateSlot
  rw [ogateAt_updMod]
  by_cases hca : c = a
  · subst hca
    have hlk : l ≠ k := fun he => h ⟨rfl, he⟩
    rw [if_pos rfl]
    unfold ogateAt
    cases findMod g c with
    | none => rfl
    | some m =>
      simp only
      rw [List.get?_eq_getElem?, List.get?_eq_getElem?,
        List.getElem?_set_ne (Ne.symm hlk)]
  · simp [hca]

theorem igateAt_setIgateSlot_self (g : Graph) (b : ModId) (j : Nat)
    (v : Option IGate) (m : Module) (hm : findMod g b = some m)
    (hj : j < m.igates.length) :
    igateAt (setIgateSlot g b j v) b j = v := by
  unfold setIgateSlot
  rw [igateAt_updMod, if_pos rfl, hm]
  simp [List.getElem?_set_self hj]

theorem igateAt_setIgateSlot_ne (g : Graph) (b : ModId) (j : Nat)
    (v : Option IGate) (c : ModId) (l : Nat) (h : ¬(c = b ∧ l = j)) :
    igateAt (setIgateSlot g b j v) c l = igateAt g c l := by
  unfold setIgateSlot
  rw [igateAt_updMod]
  by_cases hcb : c = b
  · subst hcb
    have hlj : l ≠ j := fun he => h ⟨rfl, he⟩
    rw [if_pos rfl]
    unfold igateAt
    cases findMod g c with
    | none => rfl
    | some m =>
      simp only
      rw [List.get?_eq_getElem?, List.get?_eq_getElem?,
        List.getElem?_set_ne (Ne.symm hlj)]
  · simp [hcb]

theorem getD_grow_gates {α : Type} (arr : List (Option α)) (idx l : Nat) :
    (((grow_gates arr idx).get? l).getD none) = ((arr.get? l).getD none) := by
  unfold grow_gates
  simp only [List.get?_eq_getElem?]
  by_cases h : l < arr.length
  · rw [List.getElem?_append_left h]
  · have hr : arr[l]? = none := List.getElem?_eq_none (by omega)
    rw [hr, List.getElem?_append_right (by omega), List.getElem?_replicate]
    split <;> split <;> rfl

theorem findMod_updMod_self (g : Graph) (x : ModId) (f : Module → Module)
    (m : Module) (hm : findMod g x = some m) :
    findMod (updMod g x f) x = some (f m) := by
  rw [findMod_updMod, if_pos rfl, hm]
  rfl

theorem findMod_updMod_ne (g : Graph) (x : ModId) (f : Module → Module)
    (c : ModId) (h : ¬ c = x) :
    findMod (updMod g x f) c = findMod g c := by
  rw [findMod_updMod, if_neg h]

theorem ogateAt_updMod_of_ogates_eq (g : Graph) (x : ModId) (f : Module → Module)
    (hf : ∀ m, (f m).ogates = m.ogates) (c : ModId) (k : Nat) :
    ogateAt (updMod g x f) c k = ogateAt g c k := by
  rw [ogateAt_updMod]
  by_cases hcx : c = x
  · subst hcx
    rw [if_pos rfl]
    unfold ogateAt
    cases findMod g c with
    | none => rfl
    | some m => simp only [hf m]
  · simp [hcx]

theorem igateAt_updMod_of_igates_eq (g : Graph) (x : ModId) (f : Module → Module)
    (hf : ∀ m, (f m).igates = m.igates) (c : ModId) (k : Nat) :
    igateAt (updMod g x f) c k = igateAt g c k := by
  rw [igateAt_updMod]
  by_cases hcx : c = x
  · subst hcx
    rw [if_pos rfl]
    unfold igateAt
    cases findMod g c with
    | none => rfl
    | some m => simp only [hf m]
  · simp [hcx]

theorem ogateAt_as_slot (g : Graph) (a : ModId) (k : Nat) (m : Module)
    (hm : findMod g a = some m) :
    ((m.ogates.get? k).getD none) = ogateAt g a k := by
  unfold ogateAt
  rw [hm]

theorem igateAt_as_slot (g : Graph) (b : ModId) (j : Nat) (m : Module)
    (hm : findMod g b = some m) :
    ((m.igates.get? j).getD none) = igateAt g b j := by
  unfold igateAt
  rw [hm]

theorem grow_size_loop_gt :
    ∀ (fuel sz gate : Nat), 1 ≤ sz → gate < sz + fuel →
      gate < grow_size_loop fuel sz gate := by
  intro fuel
  induction fuel with
  | zero =>
    intro sz gate h1 h2
    simpa [grow_size_loop] using h2
  | succ f ih =>
    intro sz gate h1 h2
    unfold grow_size_loop
    split
    · next hle => exact ih (sz * 2) gate (by omega) (by omega)
    · next hgt => omega

theorem lt_grow_gates_length {α : Type} (arr : List (Option α)) (idx : Nat)
    (hidx : idx < MAX_GATES) : idx < (grow_gates arr idx).length := by
  unfold grow_gates
  simp only [List.length_append, List.length_replicate]
  have hloop : idx < grow_size_loop (idx + 1)
      (if arr.length = 0 then 1 else arr.length) idx := by
    apply grow_size_loop_gt
    · split <;> omega
    · split <;> omega
  omega

theorem ogateAt_growO_upd (g : Graph) (x : ModId) (i : Nat) (c : ModId) (k : Nat) :
    ogateAt (updMod g x fun m => { m with ogates := grow_gates m.ogates i }) c k =
      ogateAt g c k := by
  rw [ogateAt_updMod]
  by_cases hcx : c = x
  · subst hcx
    rw [if_pos rfl]
    unfold ogateAt
    cases findMod g c with
    | none => rfl
    | some m => exact getD_grow_gates m.ogates i k
  · simp [hcx]

theorem igateAt_growI_upd (g : Graph) (x : ModId) (j : Nat) (c : ModId) (k : Nat) :
    igateAt (updMod g x fun m => { m with igates := grow_gates m.igates j }) c k =
      igateAt g c k := by
  rw [igateAt_updMod]
  by_cases hcx : c = x
  · subst hcx
    rw [if_pos rfl]
    unfold igateAt
    cases findMod g c with
    | none => rfl
    | some m => exact getD_grow_gates m.igates j k
  · simp [hcx]

theorem findMod_preserve_setO (g : Graph) (a : ModId) (k : Nat) (v : Option OGate)
    (c : ModId) (m : Module) (hm : findMod g c = some m) :
    ∃ m', findMod (setOgateSlot g a k v) c = some m' ∧ m'.mclass = m.mclass ∧
      m'.ogates.length = m.ogates.length ∧ m'.igates = m.igates := by
  unfold setOgateSlot
  by_cases hca : c = a
  · subst hca
    exact ⟨_, findMod_updMod_self g c _ m hm, rfl, by simp, rfl⟩
  · exact ⟨m, by rw [findMod_updMod_ne _ _ _ _ hca]; exact hm, rfl, rfl, rfl⟩

theorem findMod_preserve_setI (g : Graph) (b : ModId) (j : Nat) (v : Option IGate)
    (c : ModId) (m : Module) (hm : findMod g c = some m) :
    ∃ m', findMod (setIgateSlot g b j v) c = some m' ∧ m'.mclass = m.mclass ∧
      m'.ogates = m.ogates ∧ m'.igates.length = m.igates.length := by
  unfold setIgateSlot
  by_cases hcb : c = b
  · subst hcb
    exact ⟨_, findMod_updMod_self g c _ m hm, rfl, rfl, by simp⟩
  · exact ⟨m, by rw [findMod_updMod_ne _ _ _ _ hcb]; exact hm, rfl, rfl, rfl⟩

/-- C2 counterexample: the claim quantifies over every graph state, but on
a state holding an active igate with an empty upstream set (a state no C
execution reaches, since the last disconnect frees an igate) a successful
`connect(a,0,b,0)` followed by `disconnect(a,0)` frees that pre-existing
igate: the set of active igate slots is NOT restored. -/
theorem connect_disconnect_roundtrip_cx :
    (connect_modules cx2Graph 1 0 2 0 []).1 = 0 ∧
    activeIgate cx2Graph 2 0 = true ∧
    (disconnect_modules (connect_modules cx2Graph 1 0 2 0 []).2.1 1 0).1 = 0 ∧
    activeIgate (disconnect_modules (connect_modules cx2Graph 1 0 2 0 []).2.1 1 0).2 2 0
      = false := by decide

/-- C2 (amended): in any graph where every active igate has a nonempty
upstream set (an invariant of every state the C code can reach, since the
last disconnect frees an igate), a successful
`connect_modules(a,i,b,j)` followed by `disconnect_modules(a,i)` restores
the active-gate map: the disconnect succeeds, every module's set of
active ogate and igate slots is exactly as before the connect, and in
particular no igate created by the connect remains on `b`. -/
theorem connect_disconnect_roundtrip
    (g : Graph) (a : ModId) (i : Nat) (b : ModId) (j : Nat)
    (al al' : Alloc) (g' : Graph)
    (hne : active_igates_nonempty g)
    (hc : connect_modules g a i b j al = (0, g', al')) :
    (disconnect_modules g' a i).1 = 0 ∧
    (∀ c k, activeOgate (disconnect_modules g' a i).2 c k = activeOgate g c k) ∧
    (∀ c k, activeIgate (disconnect_modules g' a i).2 c k = activeIgate g c k) := by
  simp only [connect_modules] at hc
  split at hc <;> try (have hF := congrArg Prod.fst hc; simp [EINVAL, EBUSY, ENOMEM] at hF)
  rename_i mPrev mNext hma hmb
  split at hc <;> try (have hF := congrArg Prod.fst hc; simp [EINVAL, EBUSY, ENOMEM] at hF)
  rename_i hPB
  split at hc <;> try (have hF := congrArg Prod.fst hc; simp [EINVAL, EBUSY, ENOMEM] at hF)
  rename_i hOidx
  split at hc <;> try (have hF := congrArg Prod.fst hc; simp [EINVAL, EBUSY, ENOMEM] at hF)
  rename_i hIidx
  split at hc <;> try (have hF := congrArg Prod.fst hc; simp [EINVAL, EBUSY, ENOMEM] at hF)
  rename_i al1 hal1
  push_neg at hOidx hIidx
  set G1 : Graph :=
    (if mPrev.ogates.length ≤ i then
      updMod g a fun m => { m with ogates := grow_gates m.ogates i }
    else g) with hG1
  have hG1o : ∀ c k, ogateAt G1 c k = ogateAt g c k := by
    intro c k
    rw [hG1]
    split
    · exact ogateAt_growO_upd g a i c k
    · rfl
  have hG1i : ∀ c k, igateAt G1 c k = igateAt g c k := by
    intro c k
    rw [hG1]
    split
    · exact igateAt_updMod_of_igates_eq g a
        (fun m => { m with ogates := grow_gates m.ogates i }) (fun m => rfl) c k
    · rfl
  by_cases hBusy : activeOgate G1 a i = true
  · rw [if_pos hBusy] at hc
    exact absurd (congrArg Prod.fst hc) (by simp [EBUSY])
  rw [if_neg hBusy] at hc
  set G2 : Graph :=
    (if igatesLen G1 b ≤ j then
      updMod G1 b fun m => { m with igates := grow_gates m.igates j }
    else G1) with hG2
  have hG2o : ∀ c k, ogateAt G2 c k = ogateAt g c k := by
    intro c k
    rw [hG2]
    split
    · rw [ogateAt_updMod_of_ogates_eq G1 b
        (fun m => { m with igates := grow_gates m.igates j }) (fun m => rfl) c k]
      exact hG1o c k
    · exact hG1o c k
  have hG2i : ∀ c k, igateAt G2 c k = igateAt g c k := by
    intro c k
    rw [hG2]
    split
    · rw [igateAt_growI_upd G1 b j c k]
      exact hG1i c k
    · exact hG1i c k
  have hG2a : ∃ m2, findMod G2 a = some m2 ∧ m2.mclass = mPrev.mclass ∧
      i < m2.ogates.length := by
    have hG1a : ∃ m1, findMod G1 a = some m1 ∧ m1.mclass = mPrev.mclass ∧
        i < m1.ogates.length := by
      rw [hG1]
      split
      · next hO =>
        exact ⟨_, findMod_updMod_self g a _ mPrev hma, rfl,
          lt_grow_gates_length _ _ hOidx.2⟩
      · next hO => exact ⟨mPrev, hma, rfl, by omega⟩
    obtain ⟨m1, hm1, hmc1, hlen1⟩ := hG1a
    rw [hG2]
    split
    · by_cases hab : a = b
      · subst hab
        exact ⟨_, findMod_updMod_self G1 a _ m1 hm1, hmc1, hlen1⟩
      · exact ⟨m1, by rw [findMod_updMod_ne _ _ _ _ hab]; exact hm1, hmc1, hlen1⟩
    · exact ⟨m1, hm1, hmc1, hlen1⟩
  have hG2b : ∃ m2, findMod G2 b = some m2 ∧ m2.mclass = mNext.mclass ∧
      j < m2.igates.length := by
    have hG1b : ∃ m1, findMod G1 b = some m1 ∧ m1.mclass = mNext.mclass := by
      rw [hG1]
      split
      · by_cases hba : b = a
        · subst hba
          have heq : mPrev = mNext := by
            rw [hma] at hmb
            exact Option.some.inj hmb
          exact ⟨_, findMod_updMod_self g b _ mPrev hma, by rw [← heq]⟩
        · exact ⟨mNext, by rw [findMod_updMod_ne _ _ _ _ hba]; exact hmb, rfl⟩
      · exact ⟨mNext, hmb, rfl⟩
    obtain ⟨m1b, hm1b, hmc1b⟩ := hG1b
    rw [hG2]
    split
    · next hI =>
      exact ⟨_, findMod_updMod_self G1 b _ m1b hm1b, hmc1b,
        lt_grow_gates_length _ _ hIidx.2⟩
    · next hI =>
      refine ⟨m1b, hm1b, hmc1b, ?_⟩
      simp only [igatesLen, hm1b] at hI
      omega
  have hInact : ogateAt g a i = none := by
    unfold activeOgate at hBusy
    rw [hG1o a i] at hBusy
    exact Option.not_isSome_iff_eq_none.mp hBusy
  obtain ⟨m2a, hm2a, hm2ac, hm2al⟩ := hG2a
  obtain ⟨m2b, hm2b, hm2bc, hm2bl⟩ := hG2b
  rcases h2 : (if igatesLen G1 b ≤ j then allocOk al1 else (true, al1)) with ⟨ok2, al2⟩
  rw [h2] at hc
  rcases ok2 with _ | _
  · simp only [] at hc
    exact absurd (congrArg Prod.fst hc) (by simp [ENOMEM])
  simp only [] at hc
  rcases h3 : allocOk al2 with ⟨ok3, al3⟩
  rw [h3] at hc
  rcases ok3 with _ | _
  · simp only [] at hc
    exact absurd (congrArg Prod.fst hc) (by simp [ENOMEM])
  simp only [] at hc
  set G3 : Graph := setOgateSlot G2 a i (some { down := none }) with hG3
  obtain ⟨m3a, hm3a0, hm3ac, hm3al, hm3ai⟩ :=
    findMod_preserve_setO G2 a i (some { down := none }) a m2a hm2a
  have hm3a : findMod G3 a = some m3a := by rw [hG3]; exact hm3a0
  obtain ⟨m3b, hm3b0, hm3bc, hm3bl, hm3bi⟩ :=
    findMod_preserve_setO G2 a i (some { down := none }) b m2b hm2b
  have hm3b : findMod G3 b = some m3b := by rw [hG3]; exact hm3b0
  rcases hig : igateAt G3 b j with _ | ig
  · -- no igate yet: connect allocates one with a singleton upstream set
    rw [hig] at hc
    simp only [] at hc
    rcases h4 : allocOk al3 with ⟨ok4, al4⟩
    rw [h4] at hc
    rcases ok4 with _ | _
    · simp only [] at hc
      exact absurd (congrArg Prod.fst hc) (by simp [ENOMEM])
    simp only [] at hc
    injection hc with h0 hrest
    injection hrest with hg hal
    subst hg
    have hignone : igateAt g b j = none := by
      rw [← hG2i b j, ← igateAt_setOgateSlot G2 a i (some { down := none }) b j, ← hG3]
      exact hig
    set G4 : Graph := setIgateSlot G3 b j (some { upstream := [] }) with hG4
    set G5 : Graph := setOgateSlot G4 a i
      (some { down := some { igateMod := b, igateIdx := j } }) with hG5
    set G6 : Graph := setIgateSlot G5 b j (some { upstream := [(a, i)] }) with hG6
    obtain ⟨m4a, hm4a0, hm4ac, hm4ao, hm4ai⟩ :=
      findMod_preserve_setI G3 b j (some { upstream := [] }) a m3a hm3a
    have hm4a : findMod G4 a = some m4a := by rw [hG4]; exact hm4a0
    obtain ⟨m5a, hm5a0, hm5ac, hm5al, hm5ai⟩ :=
      findMod_preserve_setO G4 a i
        (some { down := some { igateMod := b, igateIdx := j } }) a m4a hm4a
    have hm5a : findMod G5 a = some m5a := by rw [hG5]; exact hm5a0
    obtain ⟨m6a, hm6a0, hm6ac, hm6ao, hm6ai⟩ :=
      findMod_preserve_setI G5 b j (some { upstream := [(a, i)] }) a m5a hm5a
    have hm6a : findMod G6 a = some m6a := by rw [hG6]; exact hm6a0
    obtain ⟨m4b, hm4b0, hm4bc, hm4bo, hm4bi⟩ :=
      findMod_preserve_setI G3 b j (some { upstream := [] }) b m3b hm3b
    have hm4b : findMod G4 b = some m4b := by rw [hG4]; exact hm4b0
    obtain ⟨m5b, hm5b0, hm5bc, hm5bo, hm5bi⟩ :=
      findMod_preserve_setO G4 a i
        (some { down := some { igateMod := b, igateIdx := j } }) b m4b hm4b
    have hm5b : findMod G5 b = some m5b := by rw [hG5]; exact hm5b0
    obtain ⟨m6b, hm6b0, hm6bc, hm6bo, hm6bi⟩ :=
      findMod_preserve_setI G5 b j (some { upstream := [(a, i)] }) b m5b hm5b
    have hm6b : findMod G6 b = some m6b := by rw [hG6]; exact hm6b0
    have hslotF : ogateAt G6 a i =
        some { down := some { igateMod := b, igateIdx := j } } := by
      rw [hG6, ogateAt_setIgateSlot, hG5]
      refine ogateAt_setOgateSlot_self G4 a i _ m4a hm4a ?_
      rw [hm4ao]
      omega
    have higG6 : igateAt G6 b j = some { upstream := [(a, i)] } := by
      rw [hG6]
      refine igateAt_setIgateSlot_self G5 b j _ m5b hm5b ?_
      rw [hm5bi, hm4bi, hm3bi]
      omega
    have hnumF : ¬ (m6a.mclass.numOgates ≤ i) := by
      rw [hm6ac, hm5ac, hm4ac, hm3ac, hm2ac]
      omega
    have hdisc : disconnect_modules G6 a i =
        (0, setOgateSlot (setIgateSlot G6 b j none) a i none) := by
      unfold disconnect_modules
      simp only [hm6a]
      rw [if_neg hnumF]
      have hsl : (m6a.ogates.get? i).getD none =
          some { down := some { igateMod := b, igateIdx := j } } := by
        rw [ogateAt_as_slot G6 a i m6a hm6a]
        exact hslotF
      simp only [hsl, higG6, List.erase_cons_head]
      rfl
    refine ⟨by rw [hdisc], ?_, ?_⟩
    · intro c k
      rw [hdisc]
      by_cases hck : c = a ∧ k = i
      · obtain ⟨rfl, rfl⟩ := hck
        unfold activeOgate
        obtain ⟨m7, hm7, -, hm7o, -⟩ :=
          findMod_preserve_setI G6 b j none c m6a hm6a
        rw [ogateAt_setOgateSlot_self _ c k none m7 hm7
          (by rw [hm7o, hm6ao, hm5al, hm4ao, hm3al]; omega), hInact]
      · unfold activeOgate
        rw [ogateAt_setOgateSlot_ne _ a i none c k hck, ogateAt_setIgateSlot,
          hG6, ogateAt_setIgateSlot, hG5,
          ogateAt_setOgateSlot_ne _ a i _ c k hck,
          hG4, ogateAt_setIgateSlot, hG3,
          ogateAt_setOgateSlot_ne _ a i _ c k hck, hG2o c k]
    · intro c k
      rw [hdisc]
      unfold activeIgate
      rw [igateAt_setOgateSlot]
      by_cases hck : c = b ∧ k = j
      · obtain ⟨rfl, rfl⟩ := hck
        rw [igateAt_setIgateSlot_self G6 c k none m6b hm6b
          (by rw [hm6bi, hm5bi, hm4bi, hm3bi]; omega), hignone]
      · rw [igateAt_setIgateSlot_ne _ b j none c k hck,
          hG6, igateAt_setIgateSlot_ne _ b j _ c k hck,
          hG5, igateAt_setOgateSlot, hG4,
          igateAt_setIgateSlot_ne _ b j _ c k hck,
          hG3, igateAt_setOgateSlot, hG2i c k]
  · -- the igate already existed: its upstream set gains one entry
    rw [hig] at hc
    simp only [] at hc
    injection hc with h0 hrest
    injection hrest with hg hal
    subst hg
    have higg : igateAt g b j = some ig := by
      rw [← hG2i b j, ← igateAt_setOgateSlot G2 a i (some { down := none }) b j, ← hG3]
      exact hig
    set G5 : Graph := setOgateSlot G3 a i
      (some { down := some { igateMod := b, igateIdx := j } }) with hG5
    set G6 : Graph := setIgateSlot G5 b j
      (some { upstream := ig.upstream ++ [(a, i)] }) with hG6
    obtain ⟨m5a, hm5a0, hm5ac, hm5al, hm5ai⟩ :=
      findMod_preserve_setO G3 a i
        (some { down := some { igateMod := b, igateIdx := j } }) a m3a hm3a
    have hm5a : findMod G5 a = some m5a := by rw [hG5]; exact hm5a0
    obtain ⟨m6a, hm6a0, hm6ac, hm6ao, hm6ai⟩ :=
      findMod_preserve_setI G5 b j
        (some { upstream := ig.upstream ++ [(a, i)] }) a m5a hm5a
    have hm6a : findMod G6 a = some m6a := by rw [hG6]; exact hm6a0
    obtain ⟨m5b, hm5b0, hm5bc, hm5bo, hm5bi⟩ :=
      findMod_preserve_setO G3 a i
        (some { down := some { igateMod := b, igateIdx := j } }) b m3b hm3b
    have hm5b : findMod G5 b = some m5b := by rw [hG5]; exact hm5b0
    obtain ⟨m6b, hm6b0, hm6bc, hm6bo, hm6bi⟩ :=
      findMod_preserve_setI G5 b j
        (some { upstream := ig.upstream ++ [(a, i)] }) b m5b hm5b
    have hm6b : findMod G6 b = some m6b := by rw [hG6]; exact hm6b0
    have hslotF : ogateAt G6 a i =
        some { down := some { igateMod := b, igateIdx := j } } := by
      rw [hG6, ogateAt_setIgateSlot, hG5]
      refine ogateAt_setOgateSlot_self G3 a i _ m3a hm3a ?_
      omega
    have higG6 : igateAt G6 b j = some { upstream := ig.upstream ++ [(a, i)] } := by
      rw [hG6]
      refine igateAt_setIgateSlot_self G5 b j _ m5b hm5b ?_
      rw [hm5bi, hm3bi]
      omega
    have hup_ne : ((ig.upstream ++ [(a, i)]).erase (a, i)) ≠ [] := by
      by_cases hmem : (a, i) ∈ ig.upstream
      · rw [List.erase_append_left _ hmem]
        simp
      · rw [List.erase_append_right _ hmem]
        simp only [List.erase_cons_head, List.append_nil]
        exact hne b j ig higg
    have hnumF : ¬ (m6a.mclass.numOgates ≤ i) := by
      rw [hm6ac, hm5ac, hm3ac, hm2ac]
      omega
    have hdisc : disconnect_modules G6 a i =
        (0, setOgateSlot (setIgateSlot G6 b j
          (some { upstream := (ig.upstream ++ [(a, i)]).erase (a, i) })) a i none) := by
      unfold disconnect_modules
      simp only [hm6a]
      rw [if_neg hnumF]
      have hsl : (m6a.ogates.get? i).getD none =
          some { down := some { igateMod := b, igateIdx := j } } := by
        rw [ogateAt_as_slot G6 a i m6a hm6a]
        exact hslotF
      simp only [hsl, higG6]
      rw [if_neg (by simp [hup_ne])]
    refine ⟨by rw [hdisc], ?_, ?_⟩
    · intro c k
      rw [hdisc]
      by_cases hck : c = a ∧ k = i
      · obtain ⟨rfl, rfl⟩ := hck
        unfold activeOgate
        obtain ⟨m7, hm7, -, hm7o, -⟩ :=
          findMod_preserve_setI G6 b j _ c m6a hm6a
        rw [ogateAt_setOgateSlot_self _ c k none m7 hm7
          (by rw [hm7o, hm6ao, hm5al]; omega), hInact]
      · unfold activeOgate
        rw [ogateAt_setOgateSlot_ne _ a i none c k hck, ogateAt_setIgateSlot,
          hG6, ogateAt_setIgateSlot, hG5,
          ogateAt_setOgateSlot_ne _ a i _ c k hck,
          hG3, ogateAt_setOgateSlot_ne _ a i _ c k hck, hG2o c k]
    · intro c k
      rw [hdisc]
      unfold activeIgate
      rw [igateAt_setOgateSlot]
      by_cases hck : c = b ∧ k = j
      · obtain ⟨rfl, rfl⟩ := hck
        rw [igateAt_setIgateSlot_self G6 c k _ m6b hm6b
          (by rw [hm6bi, hm5bi, hm3bi]; omega), higg]
        rfl
      · rw [igateAt_setIgateSlot_ne _ b j _ c k hck,
          hG6, igateAt_setIgateSlot_ne _ b j _ c k hck,
          hG5, igateAt_setOgateSlot, hG3, igateAt_setOgateSlot, hG2i c k]

/-! Decimal-string injectivity, probe characterization, pigeonhole. -/

theorem decVal_append_digit (l : List Char) (c : Char) :
    decVal (l ++ [c]) = decVal l * 10 + (c.toNat - 48) := by
  unfold decVal
  rw [List.foldl_append]
  rfl

theorem digitChar_val : ∀ d, d < 10 → (Nat.digitChar d).toNat - 48 = d := by decide

theorem decVal_decDigits : ∀ fuel n, n < fuel → decVal (decDigits fuel n) = n := by
  intro fuel
  induction fuel with
  | zero => intro n h; omega
  | succ f ih =>
    intro n h
    unfold decDigits
    split
    · next h10 =>
      show decVal ([] ++ [Nat.digitChar n]) = n
      rw [decVal_append_digit]
      unfold decVal
      simp [digitChar_val n h10]
    · next h10 =>
      rw [decVal_append_digit]
      rw [ih (n / 10) (by omega)]
      rw [digitChar_val (n % 10) (by omega)]
      omega

theorem natToDec_inj (m n : Nat) (h : natToDec m = natToDec n) : m = n := by
  have hd : decDigits (m + 1) m = decDigits (n + 1) n := congrArg String.data h
  have hm := decVal_decDigits (m + 1) m (by omega)
  have hn := decVal_decDigits (n + 1) n (by omega)
  rw [hd, hn] at hm
  omega

theorem base_natToDec_inj (base : String) (k1 k2 : Nat)
    (h : base ++ natToDec k1 = base ++ natToDec k2) : k1 = k2 := by
  apply natToDec_inj
  have hd := congrArg String.data h
  rw [String.data_append, String.data_append] at hd
  have := List.append_cancel_left hd
  cases hk1 : natToDec k1
  cases hk2 : natToDec k2
  rw [hk1, hk2] at this
  simp only at this
  rw [this]

theorem ns_lookup_isSome_mem (ns : List (String × ModId)) (nm : String)
    (h : (ns_lookup ns nm).isSome) : nm ∈ ns.map Prod.fst := by
  induction ns with
  | nil => simp [ns_lookup] at h
  | cons p rest ih =>
    obtain ⟨k, v⟩ := p
    unfold ns_lookup at h
    by_cases hk : nm = k
    · simp [hk]
    · rw [if_neg hk] at h
      simp only [List.map_cons, List.mem_cons]
      exact Or.inr (ih h)

theorem probe_name_charact (g : Graph) (base : String) :
    ∀ fuel start k, probe_name g base fuel start = some k →
      find_module g (base ++ natToDec k) = none ∧ start ≤ k ∧
      ∀ l, start ≤ l → l < k → (find_module g (base ++ natToDec l)).isSome := by
  intro fuel
  induction fuel with
  | zero => intro start k h; simp [probe_name] at h
  | succ f ih =>
    intro start k h
    unfold probe_name at h
    split at h
    · next hfree =>
      obtain rfl := Option.some.inj h
      exact ⟨hfree, Nat.le_refl _, fun l h1 h2 => by omega⟩
    · next hocc =>
      obtain ⟨h1, h2, h3⟩ := ih (start + 1) k h
      refine ⟨h1, by omega, ?_⟩
      intro l hl1 hl2
      by_cases hls : l = start
      · subst hls
        exact Option.ne_none_iff_isSome.mp hocc
      · exact h3 l (by omega) hl2

theorem probe_name_total (g : Graph) (base : String) :
    ∀ fuel start, (∃ k, start ≤ k ∧ k < start + fuel ∧
        find_module g (base ++ natToDec k) = none) →
      (probe_name g base fuel start).isSome := by
  intro fuel
  induction fuel with
  | zero => intro start ⟨k, h1, h2, _⟩; omega
  | succ f ih =>
    intro start ⟨k, h1, h2, h3⟩
    unfold probe_name
    split
    · rfl
    · next hocc =>
      apply ih (start + 1)
      by_cases hks : k = start
      · subst hks
        exact absurd h3 hocc
      · exact ⟨k, by omega, by omega, h3⟩

theorem exists_free_suffix (g : Graph) (base : String) :
    ∃ k, k ≤ g.ns.length ∧ find_module g (base ++ natToDec k) = none := by
  by_contra hall
  push_neg at hall
  have hmem : ∀ k, k ≤ g.ns.length → (base ++ natToDec k) ∈ g.ns.map Prod.fst := by
    intro k hk
    exact ns_lookup_isSome_mem g.ns _
      (Option.ne_none_iff_isSome.mp (hall k hk))
  have hnd : ((List.range (g.ns.length + 1)).map
      (fun k => base ++ natToDec k)).Nodup := by
    refine List.Nodup.map_on ?_ (List.nodup_range _)
    intro k1 _ k2 _ he
    exact base_natToDec_inj base k1 k2 he
  have hsub : ((List.range (g.ns.length + 1)).map (fun k => base ++ natToDec k)) ⊆
      g.ns.map Prod.fst := by
    intro x hx
    simp only [List.mem_map, List.mem_range] at hx
    obtain ⟨k, hk, rfl⟩ := hx
    exact hmem k (by omega)
  have hle := (List.subperm_of_subset hnd hsub).length_le
  simp only [List.length_map, List.length_range] at hle
  omega

theorem set_default_name_charact (g : Graph) (mc : MClass) :
    ∃ k, set_default_name g mc = default_name_base mc ++ natToDec k ∧
      find_module g (default_name_base mc ++ natToDec k) = none ∧
      ∀ l, l < k → (find_module g (default_name_base mc ++ natToDec l)).isSome := by
  obtain ⟨k0, hk0, hfree⟩ := exists_free_suffix g (default_name_base mc)
  have hsome := probe_name_total g (default_name_base mc) (g.ns.length + 1) 0
    ⟨k0, by omega, by omega, hfree⟩
  rcases hp : probe_name g (default_name_base mc) (g.ns.length + 1) 0 with _ | k
  · rw [hp] at hsome; cases hsome
  · obtain ⟨h1, -, h3⟩ := probe_name_charact g (default_name_base mc) _ _ _ hp
    refine ⟨k, ?_, h1, fun l hl => h3 l (by omega) hl⟩
    unfold set_default_name
    simp only [hp]

/-! Structure of `disconnect_modules` results, monotonicity, and
preservation of the representation invariant. -/

theorem ns_setOgateSlot (g : Graph) (a : ModId) (k : Nat) (v : Option OGate) :
    (setOgateSlot g a k v).ns = g.ns := rfl

theorem ns_setIgateSlot (g : Graph) (b : ModId) (j : Nat) (v : Option IGate) :
    (setIgateSlot g b j v).ns = g.ns := rfl

theorem disconnect_modules_shape (g : Graph) (a : ModId) (k : Nat) :
    (disconnect_modules g a k).2 = g ∨
    (disconnect_modules g a k).2 = setOgateSlot g a k none ∨
    ∃ b j w, (disconnect_modules g a k).2 =
      setOgateSlot (setIgateSlot g b j w) a k none := by
  unfold disconnect_modules
  split
  · left; rfl
  · split
    · left; rfl
    · split
      · left; rfl
      · split
        · right; left; rfl
        · split
          · right; left; rfl
          · right; right; exact ⟨_, _, _, rfl⟩

theorem disc_ns (g : Graph) (a : ModId) (k : Nat) :
    (disconnect_modules g a k).2.ns = g.ns := by
  rcases disconnect_modules_shape g a k with hs | hs | ⟨b, j, w, hs⟩ <;> rw [hs] <;> rfl

theorem ogateAt_setOgateSlot_self_or (g : Graph) (a : ModId) (k : Nat)
    (v : Option OGate) :
    ogateAt (setOgateSlot g a k v) a k = v ∨
    ogateAt (setOgateSlot g a k v) a k = ogateAt g a k := by
  rcases hm : findMod g a with _ | m
  · right
    unfold setOgateSlot
    rw [ogateAt_updMod, if_pos rfl, hm]
    unfold ogateAt
    rw [hm]
  · by_cases hk : k < m.ogates.length
    · left
      exact ogateAt_setOgateSlot_self g a k v m hm hk
    · right
      unfold setOgateSlot
      rw [ogateAt_updMod, if_pos rfl, hm]
      unfold ogateAt
      rw [hm]
      simp only [List.get?_eq_getElem?]
      rw [List.getElem?_eq_none (by simp; omega),
        List.getElem?_eq_none (by omega)]

theorem disc_ogateAt_mono (g : Graph) (a : ModId) (k : Nat) (c : ModId)
    (l : Nat) (og : OGate)
    (h : ogateAt (disconnect_modules g a k).2 c l = some og) :
    ogateAt g c l = some og := by
  rcases disconnect_modules_shape g a k with hs | hs | ⟨b, j, w, hs⟩
  · rw [hs] at h; exact h
  · rw [hs] at h
    by_cases hck : c = a ∧ l = k
    · obtain ⟨rfl, rfl⟩ := hck
      rcases ogateAt_setOgateSlot_self_or g c l none with h2 | h2
      · rw [h2] at h; cases h
      · rw [h2] at h; exact h
    · rw [ogateAt_setOgateSlot_ne _ _ _ _ _ _ hck] at h; exact h
  · rw [hs] at h
    by_cases hck : c = a ∧ l = k
    · obtain ⟨rfl, rfl⟩ := hck
      rcases ogateAt_setOgateSlot_self_or (setIgateSlot g b j w) c l none with h2 | h2
      · rw [h2] at h; cases h
      · rw [h2, ogateAt_setIgateSlot] at h; exact h
    · rw [ogateAt_setOgateSlot_ne _ _ _ _ _ _ hck, ogateAt_setIgateSlot] at h
      exact h

theorem slot_lt_length (m : Module) (k : Nat) (og : OGate)
    (hslot : (m.ogates.get? k).getD none = some og) : k < m.ogates.length := by
  by_contra hge
  rw [List.get?_eq_getElem?, List.getElem?_eq_none (by omega)] at hslot
  cases hslot

theorem islot_lt_length (m : Module) (j : Nat) (ig : IGate)
    (hslot : (m.igates.get? j).getD none = some ig) : j < m.igates.length := by
  by_contra hge
  rw [List.get?_eq_getElem?, List.getElem?_eq_none (by omega)] at hslot
  cases hslot

theorem igateAt_lt_length (g : Graph) (b : ModId) (j : Nat) (ig : IGate)
    (mb : Module) (hmb : findMod g b = some mb)
    (h : igateAt g b j = some ig) : j < mb.igates.length := by
  apply islot_lt_length mb j ig
  rw [igateAt_as_slot g b j mb hmb]
  exact h

theorem disc_slot_cleared (g : Graph) (a : ModId) (k : Nat)
    (hc : gates_consistent g) :
    ogateAt (disconnect_modules g a k).2 a k = none := by
  rcases hog : ogateAt g a k with _ | og
  · rcases disconnect_modules_shape g a k with hs | hs | ⟨b, j, w, hs⟩
    · rw [hs]; exact hog
    · rw [hs]
      rcases ogateAt_setOgateSlot_self_or g a k none with h2 | h2
      · exact h2
      · rw [h2]; exact hog
    · rw [hs]
      rcases ogateAt_setOgateSlot_self_or (setIgateSlot g b j w) a k none with h2 | h2
      · exact h2
      · rw [h2, ogateAt_setIgateSlot]; exact hog
  · obtain ⟨hbound, t, hdown, ig0, hig0, hmem0⟩ := hc.1 a k og hog
    rcases hma : findMod g a with _ | mA
    · exfalso
      unfold ogateAt at hog
      rw [hma] at hog
      cases hog
    have hslot : (mA.ogates.get? k).getD none = some og := by
      rw [ogateAt_as_slot g a k mA hma]; exact hog
    have hklen : k < mA.ogates.length := slot_lt_length mA k og hslot
    unfold disconnect_modules
    simp only [hma]
    rw [if_neg (fun hle => by have h2 := hbound mA hma; omega)]
    simp only [hslot, hdown, hig0]
    obtain ⟨m', hm', -, hlen', -⟩ :=
      findMod_preserve_setI g t.igateMod t.igateIdx
        (if (ig0.upstream.erase (a, k)).isEmpty then none
         else some { upstream := ig0.upstream.erase (a, k) }) a mA hma
    exact ogateAt_setOgateSlot_self _ a k none m' hm' (by rw [hlen']; omega)

theorem erase_eq_nil_cases {α : Type} [DecidableEq α] (l : List α) (x : α)
    (h : l.erase x = []) : l = [] ∨ l = [x] := by
  cases l with
  | nil => exact Or.inl rfl
  | cons y ys =>
    by_cases hxy : y = x
    · subst hxy
      rw [List.erase_cons_head] at h
      subst h
      exact Or.inr rfl
    · rw [List.erase_cons_tail (by simp [hxy])] at h
      exact absurd h (List.cons_ne_nil _ _)

theorem disc_inactive_noop (g : Graph) (a : ModId) (k : Nat)
    (hog : ogateAt g a k = none) :
    (disconnect_modules g a k).2 = g := by
  unfold disconnect_modules
  rcases hma : findMod g a with _ | mA
  · simp only [hma]
  · simp only [hma]
    split
    · rfl
    · have hslot : (mA.ogates.get? k).getD none = none := by
        rw [ogateAt_as_slot g a k mA hma]
        exact hog
      simp only [hslot]

theorem disc_active_result (g : Graph) (a : ModId) (k : Nat)
    (hc : gates_consistent g) (og : OGate) (hog : ogateAt g a k = some og)
    (t : OGateOut) (hdown : og.down = some t) (ig0 : IGate)
    (hig0 : igateAt g t.igateMod t.igateIdx = some ig0) :
    (disconnect_modules g a k).2 =
      setOgateSlot (setIgateSlot g t.igateMod t.igateIdx
        (if (ig0.upstream.erase (a, k)).isEmpty then none
         else some { upstream := ig0.upstream.erase (a, k) })) a k none := by
  obtain ⟨hbound, -⟩ := hc.1 a k og hog
  rcases hma : findMod g a with _ | mA
  · exfalso
    unfold ogateAt at hog
    rw [hma] at hog
    cases hog
  have hslot : (mA.ogates.get? k).getD none = some og := by
    rw [ogateAt_as_slot g a k mA hma]
    exact hog
  unfold disconnect_modules
  simp only [hma]
  rw [if_neg (fun hle => by have h2 := hbound mA hma; omega)]
  simp only [hslot, hdown, hig0]

theorem disconnect_preserves_consistent (g : Graph) (a : ModId) (k : Nat)
    (hc : gates_consistent g) :
    gates_consistent (disconnect_modules g a k).2 := by
  rcases hog : ogateAt g a k with _ | og
  · rw [disc_inactive_noop g a k hog]
    exact hc
  obtain ⟨hbound, t, hdown, ig0, hig0, hmem0⟩ := hc.1 a k og hog
  rcases hma : findMod g a with _ | mA
  · exfalso
    unfold ogateAt at hog
    rw [hma] at hog
    cases hog
  have hslot : (mA.ogates.get? k).getD none = some og := by
    rw [ogateAt_as_slot g a k mA hma]
    exact hog
  have hklen : k < mA.ogates.length := slot_lt_length mA k og hslot
  obtain ⟨mB, hfB⟩ : ∃ mB, findMod g t.igateMod = some mB := by
    unfold igateAt at hig0
    rcases hf : findMod g t.igateMod with _ | mB
    · rw [hf] at hig0; cases hig0
    · exact ⟨mB, rfl⟩
  have hJlen : t.igateIdx < mB.igates.length :=
    igateAt_lt_length g _ _ ig0 mB hfB hig0
  rw [disc_active_result g a k hc og hog t hdown ig0 hig0]
  set W : Option IGate :=
    (if (ig0.upstream.erase (a, k)).isEmpty then none
     else some { upstream := ig0.upstream.erase (a, k) }) with hW
  set G1 : Graph := setIgateSlot g t.igateMod t.igateIdx W with hG1
  constructor
  · intro c l og' hog'
    by_cases hck : c = a ∧ l = k
    · obtain ⟨rfl, rfl⟩ := hck
      exfalso
      obtain ⟨m1, hm1, -, hoeq, -⟩ :=
        findMod_preserve_setI g t.igateMod t.igateIdx W c mA hma
      rw [← hG1] at hm1
      rw [ogateAt_setOgateSlot_self G1 c l none m1 hm1 (by rw [hoeq]; omega)] at hog'
      cases hog'
    · rw [ogateAt_setOgateSlot_ne _ _ _ _ _ _ hck] at hog'
      rw [hG1, ogateAt_setIgateSlot] at hog'
      obtain ⟨hbound', t', hdown', ig', hig', hmem'⟩ := hc.1 c l og' hog'
      refine ⟨?_, t', hdown', ?_⟩
      · intro ma' hma'
        obtain ⟨mg, hmg⟩ : ∃ mg, findMod g c = some mg := by
          unfold ogateAt at hog'
          rcases hf : findMod g c with _ | mg
          · rw [hf] at hog'; cases hog'
          · exact ⟨mg, rfl⟩
        obtain ⟨m1, hm1, hmc1, -, -⟩ :=
          findMod_preserve_setI g t.igateMod t.igateIdx W c mg hmg
        rw [← hG1] at hm1
        obtain ⟨m2, hm2, hmc2, -, -⟩ :=
          findMod_preserve_setO G1 a k none c m1 hm1
        rw [hma'] at hm2
        have hme : ma' = m2 := Option.some.inj hm2
        rw [hme, hmc2, hmc1]
        exact hbound' mg hmg
      · have hclne : (c, l) ≠ (a, k) := by
          intro he
          exact hck ⟨congrArg Prod.fst he, congrArg Prod.snd he⟩
        by_cases hbj : t'.igateMod = t.igateMod ∧ t'.igateIdx = t.igateIdx
        · obtain ⟨hb1, hb2⟩ := hbj
          have hig'0 : ig' = ig0 := by
            rw [hb1, hb2, hig0] at hig'
            exact (Option.some.inj hig').symm
          have hclmem : (c, l) ∈ ig0.upstream.erase (a, k) :=
            (List.mem_erase_of_ne hclne).mpr (hig'0 ▸ hmem')
          have hWsome : W = some { upstream := ig0.upstream.erase (a, k) } := by
            rw [hW]
            rw [if_neg (by simpa using List.ne_nil_of_mem hclmem)]
          refine ⟨{ upstream := ig0.upstream.erase (a, k) }, ?_, hclmem⟩
          rw [igateAt_setOgateSlot, hb1, hb2, hG1,
            igateAt_setIgateSlot_self g t.igateMod t.igateIdx W mB hfB hJlen]
          exact hWsome
        · refine ⟨ig', ?_, hmem'⟩
          rw [igateAt_setOgateSlot, hG1,
            igateAt_setIgateSlot_ne _ _ _ _ _ _ hbj]
          exact hig'
  · intro d e igX higX
    rw [igateAt_setOgateSlot] at higX
    by_cases hde : d = t.igateMod ∧ e = t.igateIdx
    · obtain ⟨rfl, rfl⟩ := hde
      have hWval : igateAt G1 t.igateMod t.igateIdx = W := by
        rw [hG1]
        exact igateAt_setIgateSlot_self g _ _ W mB hfB hJlen
      rw [hWval, hW] at higX
      split at higX
      · cases higX
      · next hne' =>
        have higXv : igX = { upstream := ig0.upstream.erase (a, k) } :=
          (Option.some.inj higX).symm
        subst higXv
        constructor
        · exact (hc.2 _ _ ig0 hig0).1.erase _
        · intro p hp
          have hpmem : p ∈ ig0.upstream := List.erase_subset (a, k) ig0.upstream hp
          obtain ⟨ogp, hogp, hdownp⟩ := (hc.2 _ _ ig0 hig0).2 p hpmem
          have hpne : ¬(p.1 = a ∧ p.2 = k) := by
            rintro ⟨h1, h2⟩
            have hpk : p = (a, k) := Prod.ext h1 h2
            rw [hpk] at hp
            exact (hc.2 _ _ ig0 hig0).1.not_mem_erase hp
          refine ⟨ogp, ?_, hdownp⟩
          rw [ogateAt_setOgateSlot_ne _ _ _ _ _ _ hpne, hG1, ogateAt_setIgateSlot]
          exact hogp
    · rw [hG1, igateAt_setIgateSlot_ne _ _ _ _ _ _ hde] at higX
      obtain ⟨hnd', hup'⟩ := hc.2 d e igX higX
      refine ⟨hnd', ?_⟩
      intro p hp
      obtain ⟨ogp, hogp, hdownp⟩ := hup' p hp
      have hpne : ¬(p.1 = a ∧ p.2 = k) := by
        rintro ⟨h1, h2⟩
        have hpk : p = (a, k) := Prod.ext h1 h2
        rw [hpk, hog] at hogp
        have hogeq : og = ogp := Option.some.inj hogp
        rw [← hogeq, hdown] at hdownp
        have ht : t = { igateMod := d, igateIdx := e } := Option.some.inj hdownp
        exact hde ⟨by rw [ht], by rw [ht]⟩
      refine ⟨ogp, ?_, hdownp⟩
      rw [ogateAt_setOgateSlot_ne _ _ _ _ _ _ hpne, hG1, ogateAt_setIgateSlot]
      exact hogp

theorem disc_fold_consistent (ps : List (ModId × Nat)) :
    ∀ h : Graph, gates_consistent h →
      gates_consistent
        (ps.foldl (fun acc2 p => (disconnect_modules acc2 p.1 p.2).2) h) := by
  induction ps with
  | nil => intro h hc; exact hc
  | cons q qs ih =>
    intro h hc
    simp only [List.foldl_cons]
    exact ih _ (disconnect_preserves_consistent h q.1 q.2 hc)

theorem disc_fold_mono (ps : List (ModId × Nat)) (c : ModId) (l : Nat) (og : OGate) :
    ∀ h : Graph,
      ogateAt (ps.foldl (fun acc2 p => (disconnect_modules acc2 p.1 p.2).2) h)
        c l = some og →
      ogateAt h c l = some og := by
  induction ps with
  | nil => intro h hog; exact hog
  | cons q qs ih =>
    intro h hog
    simp only [List.foldl_cons] at hog
    exact disc_ogateAt_mono h q.1 q.2 c l og (ih _ hog)

theorem disc_fold_ns (ps : List (ModId × Nat)) :
    ∀ h : Graph,
      (ps.foldl (fun acc2 p => (disconnect_modules acc2 p.1 p.2).2) h).ns = h.ns := by
  induction ps with
  | nil => intro h; rfl
  | cons q qs ih =>
    intro h
    simp only [List.foldl_cons]
    rw [ih]
    exact disc_ns h q.1 q.2

theorem disc_fold_clears (ps : List (ModId × Nat)) :
    ∀ h : Graph, gates_consistent h → ∀ p ∈ ps,
      ogateAt (ps.foldl (fun acc2 q => (disconnect_modules acc2 q.1 q.2).2) h)
        p.1 p.2 = none := by
  induction ps with
  | nil => intro h hc p hp; exact absurd hp (List.not_mem_nil p)
  | cons q qs ih =>
    intro h hc p hp
    simp only [List.foldl_cons]
    rcases List.mem_cons.mp hp with hpq | hp'
    · rw [hpq]
      rcases hfin : ogateAt
          (qs.foldl (fun acc2 r => (disconnect_modules acc2 r.1 r.2).2)
            ((disconnect_modules h q.1 q.2).2)) q.1 q.2 with _ | og
      · exact hfin
      · exfalso
        have h2 := disc_fold_mono qs q.1 q.2 og _ hfin
        rw [disc_slot_cleared h q.1 q.2 hc] at h2
        cases h2
    · exact ih _ (disconnect_preserves_consistent h q.1 q.2 hc) p hp'

theorem igate_fold_mono (mid : ModId) (is : List Nat) (c : ModId) (l : Nat)
    (og : OGate) :
    ∀ h : Graph,
      ogateAt (is.foldl (fun acc i =>
          match igateAt acc mid i with
          | some ig => ig.upstream.foldl
              (fun acc2 p => (disconnect_modules acc2 p.1 p.2).2) acc
          | none => acc) h) c l = some og →
      ogateAt h c l = some og := by
  induction is with
  | nil => intro h hog; exact hog
  | cons i is ih =>
    intro h hog
    simp only [List.foldl_cons] at hog
    rcases hig : igateAt h mid i with _ | ig
    · simp only [hig] at hog
      exact ih h hog
    · simp only [hig] at hog
      exact disc_fold_mono ig.upstream c l og h (ih _ hog)

theorem igate_fold_consistent (mid : ModId) (is : List Nat) :
    ∀ h : Graph, gates_consistent h →
      gates_consistent (is.foldl (fun acc i =>
          match igateAt acc mid i with
          | some ig => ig.upstream.foldl
              (fun acc2 p => (disconnect_modules acc2 p.1 p.2).2) acc
          | none => acc) h) := by
  induction is with
  | nil => intro h hc; exact hc
  | cons i is ih =>
    intro h hc
    simp only [List.foldl_cons]
    rcases hig : igateAt h mid i with _ | ig
    · simp only [hig]
      exact ih h hc
    · simp only [hig]
      exact ih _ (disc_fold_consistent ig.upstream h hc)

theorem igate_fold_ns (mid : ModId) (is : List Nat) :
    ∀ h : Graph,
      (is.foldl (fun acc i =>
          match igateAt acc mid i with
          | some ig => ig.upstream.foldl
              (fun acc2 p => (disconnect_modules acc2 p.1 p.2).2) acc
          | none => acc) h).ns = h.ns := by
  induction is with
  | nil => intro h; rfl
  | cons i is ih =>
    intro h
    simp only [List.foldl_cons]
    rcases hig : igateAt h mid i with _ | ig
    · simp only [hig]
      exact ih h
    · simp only [hig]
      rw [ih]
      exact disc_fold_ns ig.upstream h

theorem igate_fold_dead (mid : ModId) (is : List Nat) :
    ∀ h : Graph, gates_consistent h → ∀ j ∈ is,
      ∀ c l og t, ogateAt (is.foldl (fun acc i =>
          match igateAt acc mid i with
          | some ig => ig.upstream.foldl
              (fun acc2 p => (disconnect_modules acc2 p.1 p.2).2) acc
          | none => acc) h) c l = some og →
        og.down = some t → ¬(t.igateMod = mid ∧ t.igateIdx = j) := by
  induction is with
  | nil => intro h hc j hj; exact absurd hj (List.not_mem_nil j)
  | cons i is ih =>
    intro h hc j hj c l og t hog hdown ht
    obtain ⟨ht1, ht2⟩ := ht
    simp only [List.foldl_cons] at hog
    rcases hig : igateAt h mid i with _ | ig
    · simp only [hig] at hog
      rcases List.mem_cons.mp hj with hji | hj'
      · have hogh : ogateAt h c l = some og := igate_fold_mono mid is c l og h hog
        obtain ⟨-, t', hdown', ig', hig', -⟩ := hc.1 c l og hogh
        rw [hdown] at hdown'
        have htt : t = t' := Option.some.inj hdown'
        rw [← htt, ht1, ht2, hji] at hig'
        rw [hig] at hig'
        cases hig'
      · exact ih h hc j hj' c l og t hog hdown ⟨ht1, ht2⟩
    · simp only [hig] at hog
      rcases List.mem_cons.mp hj with hji | hj'
      · have hogh' : ogateAt (ig.upstream.foldl
            (fun acc2 p => (disconnect_modules acc2 p.1 p.2).2) h) c l = some og :=
          igate_fold_mono mid is c l og _ hog
        have hogh : ogateAt h c l = some og :=
          disc_fold_mono ig.upstream c l og _ hogh'
        obtain ⟨-, t', hdown', ig', hig', hmem'⟩ := hc.1 c l og hogh
        rw [hdown] at hdown'
        have htt : t = t' := Option.some.inj hdown'
        rw [← htt, ht1, ht2, hji] at hig'
        rw [hig] at hig'
        have hgeq : ig = ig' := Option.some.inj hig'
        have hcl : (c, l) ∈ ig.upstream := by rw [hgeq]; exact hmem'
        have hclr := disc_fold_clears ig.upstream h hc (c, l) hcl
        have hclr' : ogateAt (ig.upstream.foldl
            (fun acc2 p => (disconnect_modules acc2 p.1 p.2).2) h) c l = none := hclr
        rw [hclr'] at hogh'
        cases hogh'
      · exact ih _ (disc_fold_consistent ig.upstream h hc) j hj' c l og t hog
          hdown ⟨ht1, ht2⟩

theorem range_disc_mono (mid : ModId) (is : List Nat) (c : ModId) (l : Nat)
    (og : OGate) :
    ∀ h : Graph,
      ogateAt (is.foldl (fun acc i => (disconnect_modules acc mid i).2) h)
        c l = some og →
      ogateAt h c l = some og := by
  induction is with
  | nil => intro h hog; exact hog
  | cons i is ih =>
    intro h hog
    simp only [List.foldl_cons] at hog
    exact disc_ogateAt_mono h mid i c l og (ih _ hog)

theorem range_disc_ns (mid : ModId) (is : List Nat) :
    ∀ h : Graph,
      (is.foldl (fun acc i => (disconnect_modules acc mid i).2) h).ns = h.ns := by
  induction is with
  | nil => intro h; rfl
  | cons i is ih =>
    intro h
    simp only [List.foldl_cons]
    rw [ih]
    exact disc_ns h mid i

theorem ns_lookup_not_mem (l : List (String × ModId)) (nm : String)
    (h : nm ∉ l.map Prod.fst) : ns_lookup l nm = none := by
  induction l with
  | nil => rfl
  | cons p rest ih =>
    obtain ⟨k, v⟩ := p
    simp only [List.map_cons, List.mem_cons] at h
    push_neg at h
    unfold ns_lookup
    rw [if_neg h.1]
    exact ih h.2

theorem ns_lookup_ns_remove (l : List (String × ModId)) (nm : String)
    (h : (l.map Prod.fst).Nodup) : ns_lookup (ns_remove l nm) nm = none := by
  induction l with
  | nil => rfl
  | cons p rest ih =>
    obtain ⟨k, v⟩ := p
    simp only [List.map_cons, List.nodup_cons] at h
    unfold ns_remove
    by_cases hk : k = nm
    · rw [if_pos hk]
      apply ns_lookup_not_mem
      rw [← hk]
      exact h.1
    · rw [if_neg hk]
      unfold ns_lookup
      rw [if_neg (fun h2 => hk h2.symm)]
      exact ih h.2

theorem lookupMod_removeMod_self (l : List (ModId × Module)) (mid : ModId) :
    findMod.lookupMod (removeMod l mid) mid = none := by
  induction l with
  | nil => rfl
  | cons p rest ih =>
    obtain ⟨k, m⟩ := p
    unfold removeMod
    by_cases hk : k = mid
    · rw [if_pos hk]
      exact ih
    · rw [if_neg hk, lookupMod_cons, if_neg (fun h2 => hk h2.symm)]
      exact ih

theorem lookupMod_removeMod_ne (l : List (ModId × Module)) (mid c : ModId)
    (hne : c ≠ mid) :
    findMod.lookupMod (removeMod l mid) c = findMod.lookupMod l c := by
  induction l with
  | nil => rfl
  | cons p rest ih =>
    obtain ⟨k, m⟩ := p
    unfold removeMod
    by_cases hk : k = mid
    · rw [if_pos hk, lookupMod_cons, if_neg (by rw [hk]; exact hne)]
      exact ih
    · rw [if_neg hk, lookupMod_cons, lookupMod_cons]
      by_cases hck : c = k
      · rw [if_pos hck, if_pos hck]
      · rw [if_neg hck, if_neg hck]
        exact ih

theorem ogateAt_removed (g2 : Graph) (ns2 : List (String × ModId))
    (mid c : ModId) (k : Nat) :
    ogateAt { mods := removeMod g2.mods mid, ns := ns2 } c k =
      if c = mid then none else ogateAt g2 c k := by
  by_cases hcm : c = mid
  · rw [if_pos hcm, hcm]
    unfold ogateAt findMod
    rw [lookupMod_removeMod_self]
  · rw [if_neg hcm]
    unfold ogateAt findMod
    rw [lookupMod_removeMod_ne g2.mods mid c hcm]

theorem wGraph_consistent : gates_consistent wGraph := by
  constructor
  · intro a k og hog
    exfalso
    have hnone : ogateAt wGraph a k = none := by
      unfold ogateAt findMod
      by_cases h1 : a = 1
      · subst h1; simp [findMod.lookupMod, wGraph, freshMod]
      · simp [findMod.lookupMod, wGraph, h1]
    rw [hnone] at hog
    cases hog
  · intro b j ig hig
    exfalso
    have hnone : igateAt wGraph b j = none := by
      unfold igateAt findMod
      by_cases h1 : b = 1
      · subst h1; simp [findMod.lookupMod, wGraph, freshMod]
      · simp [findMod.lookupMod, wGraph, h1]
    rw [hnone] at hig
    cases hig

/-- C3: `destroy_module` performs its steps in the transcribed source
order — `deinit` hook (external, no graph effect), then for every active
igate a disconnect of each of its upstream ogates, then a disconnect of
every ogate slot of the module, then task destruction (external), then
namespace removal, then freeing the instance — and afterwards, for a
module of a consistent graph whose namespace keys are duplicate-free,
`find_module` on its name returns none and no active ogate of any
remaining module references the destroyed module or any of its igates. -/
theorem destroy_module_spec (g : Graph) (mid : ModId) (m : Module)
    (hcons : gates_consistent g)
    (hnod : (g.ns.map Prod.fst).Nodup)
    (hm : findMod g mid = some m) :
    find_module (destroy_module g mid) m.name = none ∧
    ∀ c k og t, ogateAt (destroy_module g mid) c k = some og →
      og.down = some t → t.igateMod ≠ mid := by
  unfold destroy_module
  simp only [hm]
  constructor
  · unfold find_module
    apply ns_lookup_ns_remove
    rw [range_disc_ns, igate_fold_ns]
    exact hnod
  · intro c k og t hog hdown ht
    rw [ogateAt_removed] at hog
    by_cases hcm : c = mid
    · rw [if_pos hcm] at hog
      cases hog
    · rw [if_neg hcm] at hog
      have hog1 := range_disc_mono mid _ c k og _ hog
      have hogg := igate_fold_mono mid (List.range m.igates.length) c k og g hog1
      obtain ⟨-, t', hdown', ig', hig', -⟩ := hcons.1 c k og hogg
      rw [hdown] at hdown'
      have htt : t = t' := Option.some.inj hdown'
      rw [← htt, ht] at hig'
      have hlen : t.igateIdx < m.igates.length :=
        igateAt_lt_length g mid t.igateIdx ig' m hm hig'
      exact igate_fold_dead mid (List.range m.igates.length) g hcons t.igateIdx
        (List.mem_range.mpr hlen) c k og t hog1 hdown ⟨ht, rfl⟩

/-- Witness for `destroy_module_spec` on the one-module graph `wGraph`:
all hypotheses hold concretely and destroying module 1 unbinds its
name. -/
theorem destroy_module_spec_witness :
    gates_consistent wGraph ∧ (wGraph.ns.map Prod.fst).Nodup ∧
    findMod wGraph 1 = some (freshMod "s") ∧
    find_module (destroy_module wGraph 1) (freshMod "s").name = none :=
  ⟨wGraph_consistent, by decide, by decide,
    (destroy_module_spec wGraph 1 (freshMod "s") wGraph_consistent (by decide)
      (by decide)).1⟩

theorem igatesLen_updMod_of_igates_eq (g : Graph) (x : ModId)
    (f : Module → Module) (hf : ∀ m, (f m).igates = m.igates) (c : ModId) :
    igatesLen (updMod g x f) c = igatesLen g c := by
  unfold igatesLen
  rw [findMod_updMod]
  by_cases hcx : c = x
  · subst hcx
    rw [if_pos rfl]
    cases findMod g c with
    | none => rfl
    | some m =>
      show (f m).igates.length = m.igates.length
      rw [hf m]
  · rw [if_neg hcx]

/-- C4: `connect_modules` checks its preconditions in the order the claim
lists and returns the first failure — missing `process_batch` (-EINVAL),
ogate index out of range (-EINVAL), igate index out of range (-EINVAL),
ogate-array growth failure (-ENOMEM), busy ogate slot (-EBUSY),
igate-array growth failure (-ENOMEM) — and returns 0 exactly when every
check passes and the remaining allocations succeed. -/
theorem connect_modules_error_order (g : Graph) (a : ModId) (i : Nat)
    (b : ModId) (j : Nat) (al : Alloc) (mPrev mNext : Module)
    (hma : findMod g a = some mPrev) (hmb : findMod g b = some mNext) :
    (connect_modules g a i b j al).1 =
      connect_result_spec g a i b j al mPrev mNext := by
  unfold connect_modules connect_result_spec
  simp only [hma, hmb]
  by_cases h1 : mNext.mclass.hasProcessBatch = false
  · simp only [if_pos h1]
  · simp only [if_neg h1]
    by_cases h2 : mPrev.mclass.numOgates ≤ i ∨ MAX_GATES ≤ i
    · simp only [if_pos h2]
    · simp only [if_neg h2]
      by_cases h3 : mNext.mclass.numIgates ≤ j ∨ MAX_GATES ≤ j
      · simp only [if_pos h3]
      · simp only [if_neg h3]
        set G1 : Graph :=
          (if mPrev.ogates.length ≤ i then
            updMod g a fun m => { m with ogates := grow_gates m.ogates i }
          else g) with hG1
        have hG1o : activeOgate G1 a i = activeOgate g a i := by
          unfold activeOgate
          rw [hG1]
          split
          · rw [ogateAt_growO_upd]
          · rfl
        have hG1il : igatesLen G1 b = igatesLen g b := by
          rw [hG1]
          split
          · exact igatesLen_updMod_of_igates_eq g a
              (fun m => { m with ogates := grow_gates m.ogates i }) (fun m => rfl) b
          · rfl
        have hG1i : ∀ c k, igateAt G1 c k = igateAt g c k := by
          intro c k
          rw [hG1]
          split
          · exact igateAt_updMod_of_igates_eq g a
              (fun m => { m with ogates := grow_gates m.ogates i }) (fun m => rfl) c k
          · rfl
        rcases hA1 : (if mPrev.ogates.length ≤ i then allocOk al else (true, al))
          with ⟨ok1, al1⟩
        simp only [hA1]
        rcases ok1 with _ | _
        · rfl
        · simp only [hG1o]
          by_cases hB : activeOgate g a i = true
          · simp only [if_pos hB]
            rfl
          · simp only [if_neg hB, hG1il]
            set G2 : Graph :=
              (if igatesLen g b ≤ j then
                updMod G1 b fun m => { m with igates := grow_gates m.igates j }
              else G1) with hG2
            have hG2i : ∀ c k, igateAt G2 c k = igateAt g c k := by
              intro c k
              rw [hG2]
              split
              · rw [igateAt_growI_upd]
                exact hG1i c k
              · exact hG1i c k
            rcases hA2 : (if igatesLen g b ≤ j then allocOk al1 else (true, al1))
              with ⟨ok2, al2⟩
            simp only [hA2]
            rcases ok2 with _ | _
            · rfl
            · rcases hA3 : allocOk al2 with ⟨ok3, al3⟩
              simp only [hA3]
              rcases ok3 with _ | _
              · rfl
              · have higeq :
                    igateAt (setOgateSlot G2 a i (some { down := none })) b j =
                      igateAt g b j := by
                  rw [igateAt_setOgateSlot]
                  exact hG2i b j
                simp only [higeq]
                rcases hig : igateAt g b j with _ | ig
                · rcases hA4 : allocOk al3 with ⟨ok4, al4⟩
                  simp only [hA4]
                  rcases ok4 with _ | _ <;> rfl
                · rfl

/-- Witness for `connect_modules_error_order`: the EBUSY case of scenario
S4 — a second connect on an already-connected ogate slot. -/
theorem connect_modules_error_order_witness :
    (connect_modules rtGraph 1 0 2 0 []).1 =
      connect_result_spec rtGraph 1 0 2 0 []
        { freshMod "a" with
          ogates := [some { down := some { igateMod := 2, igateIdx := 0 } }] }
        { freshMod "b" with igates := [some { upstream := [(1, 0)] }] } ∧
    (connect_modules rtGraph 1 0 2 0 []).1 = -EBUSY :=
  ⟨connect_modules_error_order rtGraph 1 0 2 0 []
      { freshMod "a" with
        ogates := [some { down := some { igateMod := 2, igateIdx := 0 } }] }
      { freshMod "b" with igates := [some { upstream := [(1, 0)] }] }
      (by decide) (by decide),
   by decide⟩

/-- C5: `create_module` with a caller-supplied name already bound in the
namespace fails with EEXIST; and every failure (duplicate name,
allocation failure, or an error returned by the class `init` hook)
registers nothing: the graph — hence the namespace — is left exactly as
it was and the partially constructed instance is freed. -/
theorem create_module_failure_clean :
    (∀ g nm mc ie al nid, (find_module g nm).isSome →
      create_module g (some nm) mc ie al nid = (none, some EEXIST, g, al)) ∧
    (∀ g nmo mc ie al nid, (create_module g nmo mc ie al nid).1 = none →
      (create_module g nmo mc ie al nid).2.2.1 = g) := by
  constructor
  · intro g nm mc ie al nid h
    unfold create_module
    rw [if_pos (by simp [h])]
  · intro g nmo mc ie al nid
    unfold create_module
    repeat' split
    all_goals try simp only []
    repeat' split
    all_goals intro h
    all_goals first
      | rfl
      | simp at h
      | simp_all

/-- Witness for `create_module_failure_clean` on a one-module graph. -/
theorem create_module_failure_clean_witness :
    create_module wGraph (some "s") srcClass none [] 9 =
      (none, some EEXIST, wGraph, []) ∧
    (create_module wGraph (some "s") srcClass none [] 9).2.2.1 = wGraph :=
  ⟨create_module_failure_clean.1 wGraph "s" srcClass none [] 9 (by decide),
   create_module_failure_clean.2 wGraph (some "s") srcClass none [] 9 (by decide)⟩

/-- C6 counterexample: the conversion loop inserts an underscore only
before an uppercase letter that follows a lowercase letter
(module.c:106), so class "MyIPChecksum" yields the instance name
"my_ipchecksum0" — not the "my_ip_checksum0" asserted by the claim's
scenario (the claim's own general rule agrees with the code; its expected
strings do not). -/
theorem set_default_name_scenario_cx :
    (findMod c6g1 1).map Module.name = some "my_ipchecksum0" ∧
    (findMod c6g1 1).map Module.name ≠ some "my_ip_checksum0" := by decide

/-- C6 (amended): a null-name create chooses the class's
default_instance_name if set, else the class name converted CamelCase →
snake_case (an underscore before every uppercase letter following a
lowercase letter, all letters lowercased), suffixed with the lowest
non-negative `k` making the name unbound; three successive null-name
creates against class "MyIPChecksum" yield "my_ipchecksum0",
"my_ipchecksum1", "my_ipchecksum2", and after destroying the middle one a
fourth create yields "my_ipchecksum1". -/
theorem set_default_name_spec :
    (∀ g mc, ∃ k,
      set_default_name g mc = default_name_base mc ++ natToDec k ∧
      find_module g (default_name_base mc ++ natToDec k) = none ∧
      ∀ l, l < k → (find_module g (default_name_base mc ++ natToDec l)).isSome) ∧
    camel_to_snake "MyIPChecksum" = "my_ipchecksum" ∧
    (findMod c6g1 1).map Module.name = some "my_ipchecksum0" ∧
    (findMod c6g2 2).map Module.name = some "my_ipchecksum1" ∧
    (findMod c6g3 3).map Module.name = some "my_ipchecksum2" ∧
    find_module c6g4 "my_ipchecksum1" = none ∧
    (findMod c6g5 4).map Module.name = some "my_ipchecksum1" :=
  ⟨set_default_name_charact, by decide⟩

/-- Witness for `set_default_name_spec`: its concrete conversion fact. -/
theorem set_default_name_spec_witness :
    camel_to_snake "MyIPChecksum" = "my_ipchecksum" :=
  set_default_name_spec.2.1

/-- Witness for `connect_disconnect_roundtrip` on two fresh modules. -/
theorem connect_disconnect_roundtrip_witness :
    (disconnect_modules rtGraph 1 0).1 = 0 ∧
    activeOgate (disconnect_modules rtGraph 1 0).2 1 0 = activeOgate cxGraph 1 0 ∧
    activeIgate (disconnect_modules rtGraph 1 0).2 2 0 = activeIgate cxGraph 2 0 := by
  have h := connect_disconnect_roundtrip cxGraph 1 0 2 0 [] [] rtGraph
    (fun b j ig hig => by
      have hnone : igateAt cxGraph b j = none := by
        unfold igateAt findMod
        by_cases h1 : b = 1
        · subst h1; simp [findMod.lookupMod, cxGraph, freshMod]
        · by_cases h2 : b = 2
          · subst h2; simp [findMod.lookupMod, cxGraph, freshMod]
          · simp [findMod.lookupMod, cxGraph, h1, h2]
      rw [hnone] at hig
      cases hig)
    (by decide)
  exact ⟨h.1, h.2.1 1 0, h.2.2 2 0⟩

end Bess
